import Mathlib

/-!
Verification of the TOON codec inlined in src/toon-lib.ts of
n8n-nodes-toon-encode (encoder, scanner, parser).

Shallow embedding conventions:
* JavaScript strings are modelled as lists of characters (abbrev Str).
* JavaScript numbers are modelled as exact decimals (integer mantissa and
  power-of-ten exponent); the rounding and overflow behaviour of IEEE-754
  doubles is outside the embedding (number literals occurring in the claims
  are small integers, where the model and the runtime agree exactly).
* Fallible code returns Except String.
* Mutually recursive procedures take an explicit fuel argument and
  recurse structurally on it, so that terms reduce in the kernel; the
  entry points supply fuel that exceeds every recursion depth reachable
  on the given input.
-/

set_option maxRecDepth 100000

namespace Toon

/-- JavaScript string modelled as a list of UTF-16-ish characters. -/
abbrev Str := List Char

/-- Characters treated as whitespace by JS trim and the regex class backslash-s
(space, tab, newline, carriage return, vertical tab, form feed). -/
def jsWsChar (c : Char) : Bool :=
  c = ' ' || c = '\t' || c = '\n' || c = '\r' || c = '\x0b' || c = '\x0c'

/-- JS String.prototype.trimStart. -/
def jsTrimLeft (s : Str) : Str := s.dropWhile jsWsChar

/-- JS String.prototype.trimEnd. -/
def jsTrimRight (s : Str) : Str := (s.reverse.dropWhile jsWsChar).reverse

/-- JS String.prototype.trim. -/
def jsTrim (s : Str) : Str := jsTrimLeft (jsTrimRight s)

/-- Auxiliary for jsSplit: accumulates the current piece in reverse. -/
def jsSplitAux (sep : Char) : Str → Str → List Str
  | [], acc => [acc.reverse]
  | c :: rest, acc =>
    if c = sep then acc.reverse :: jsSplitAux sep rest []
    else jsSplitAux sep rest (c :: acc)

/-- JS String.prototype.split with a single-character separator
(always returns at least one piece; an empty string splits to one empty piece). -/
def jsSplit (sep : Char) (s : Str) : List Str := jsSplitAux sep s []

/-- Decimal digit characters of a natural number, most significant first,
prepended to the accumulator.  Fuel-driven so that it reduces in the kernel;
the entry point supplies enough fuel for every digit. -/
def natDigitsAux : Nat → Nat → Str → Str
  | 0, _, acc => acc
  | fuel+1, n, acc =>
    if n < 10 then Char.ofNat (48 + n) :: acc
    else natDigitsAux fuel (n / 10) (Char.ofNat (48 + n % 10) :: acc)

/-- Decimal rendering of a natural number (JS String(n) for naturals). -/
def natToStr (n : Nat) : Str := natDigitsAux (n + 1) n []

/-- Decimal rendering of an integer (JS String(n) for safe integers). -/
def intToStr (i : Int) : Str :=
  if i < 0 then '-' :: natToStr i.natAbs else natToStr i.natAbs

/-- Exact decimal number: the value m times ten to the e.  JS numbers are
abstracted as exact decimals; the rounding and overflow of IEEE-754 doubles
is outside the embedding.  Values are kept normalized (the mantissa not a
multiple of ten, zero stored as zero times ten to the zero), so equality of
the representation coincides with equality of the represented value. -/
structure Dec10 where
  m : Int
  e : Int
deriving DecidableEq

/-- Strips factors of ten from the mantissa into the exponent (fuel-driven
so that it reduces in the kernel). -/
def stripTensAux : Nat → Int → Int → Dec10
  | 0, m, e => ⟨m, e⟩
  | fuel + 1, m, e =>
    if m ≠ 0 ∧ m % 10 = 0 then stripTensAux fuel (m / 10) (e + 1) else ⟨m, e⟩

/-- Normalizing constructor of a decimal from mantissa and exponent. -/
def Dec10.make (m e : Int) : Dec10 :=
  if m = 0 then ⟨0, 0⟩ else stripTensAux m.natAbs m e

/-- The decimal of an integer. -/
def Dec10.ofInt (i : Int) : Dec10 := Dec10.make i 0

/-- Rendering of a number value, JS String(value) for a number.  Integral
values render exactly as the runtime does; non-integral decimals (never
produced by the concrete scenarios of the specification) render as mantissa,
letter e, exponent. -/
def numToStr (d : Dec10) : Str :=
  if 0 ≤ d.e then intToStr (d.m * (10 : Int) ^ d.e.toNat)
  else intToStr d.m ++ 'e' :: intToStr d.e

/-- JSON value domain of the codec (source type JsonValue), with object fields
as an insertion-ordered association list, mirroring JS object key order. -/
inductive JsonValue where
  | null : JsonValue
  | bool (b : Bool) : JsonValue
  | num (n : Dec10) : JsonValue
  | str (s : Str) : JsonValue
  | arr (items : List JsonValue) : JsonValue
  | obj (fields : List (Str × JsonValue)) : JsonValue

/-- Source isJsonPrimitive. -/
def isJsonPrimitive : JsonValue → Bool
  | .null | .bool _ | .num _ | .str _ => true
  | _ => false

/-- Source isJsonArray. -/
def isJsonArrayV : JsonValue → Bool
  | .arr _ => true
  | _ => false

/-- Source isJsonObject. -/
def isJsonObjectV : JsonValue → Bool
  | .obj _ => true
  | _ => false

/-- Source isArrayOfPrimitives. -/
def isArrayOfPrimitives (items : List JsonValue) : Bool :=
  items.all isJsonPrimitive

/-- Source isArrayOfArrays. -/
def isArrayOfArrays (items : List JsonValue) : Bool :=
  items.all isJsonArrayV

/-- Source isArrayOfObjects. -/
def isArrayOfObjects (items : List JsonValue) : Bool :=
  items.all isJsonObjectV

/-- Encoder delimiter option: the source type is the union of comma, tab
and pipe. -/
inductive Delim where
  | comma : Delim
  | tab : Delim
  | pipe : Delim

/-- The character of a delimiter. -/
def Delim.char : Delim → Char
  | .comma => ','
  | .tab => '\t'
  | .pipe => '|'

/-- Source ResolvedOptions for the encoder. -/
structure ResolvedOptions where
  indent : Nat
  delimiter : Delim
  lengthMarker : Bool

/-- Source EncodeOptions (all fields optional). -/
structure EncodeOptions where
  indent : Option Nat := none
  delimiter : Option Delim := none
  lengthMarker : Option Bool := none

/-- Option resolution performed inside the source encode function. -/
def resolveOptions (o : EncodeOptions) : ResolvedOptions :=
  { indent := o.indent.getD 2
    delimiter := o.delimiter.getD .comma
    lengthMarker := o.lengthMarker.getD false }

/-- Source single-character replace-all (one .replace with a global
single-character pattern). -/
def jsReplaceChar (target : Char) (repl : Str) : Str → Str
  | [] => []
  | c :: rest =>
    if c = target then repl ++ jsReplaceChar target repl rest
    else c :: jsReplaceChar target repl rest

/-- Source escapeString: five sequential global replaces. -/
def escapeString (value : Str) : Str :=
  jsReplaceChar '\t' ['\\', 't']
    (jsReplaceChar '\r' ['\\', 'r']
      (jsReplaceChar '\n' ['\\', 'n']
        (jsReplaceChar '"' ['\\', '"']
          (jsReplaceChar '\\' ['\\', '\\'] value))))

/-- Per-character view of escapeString (the five sequential replaces never
touch characters introduced by an earlier replace). -/
def escapeChar (c : Char) : Str :=
  if c = '\\' then ['\\', '\\']
  else if c = '"' then ['\\', '"']
  else if c = '\n' then ['\\', 'n']
  else if c = '\r' then ['\\', 'r']
  else if c = '\t' then ['\\', 't']
  else [c]

/-- Source isBooleanOrNullLiteral. -/
def isBooleanOrNullLiteral (token : Str) : Bool :=
  token = "true".data || token = "false".data || token = "null".data

/-- Matcher for the regex -?d+(.d+)?(e[+-]?d+)? with the i flag
(first alternative of isNumericLike). -/
def matchLooseNumber (s : Str) : Bool :=
  let s1 := match s with
    | '-' :: rest => rest
    | _ => s
  let ds := s1.takeWhile Char.isDigit
  if ds.isEmpty then false else
  let r1 := s1.drop ds.length
  let r2 := match r1 with
    | '.' :: rest =>
      let fs := rest.takeWhile Char.isDigit
      if fs.isEmpty then none else some (rest.drop fs.length)
    | _ => some r1
  match r2 with
  | none => false
  | some r3 =>
    match r3 with
    | [] => true
    | e :: rest =>
      if e = 'e' || e = 'E' then
        let r4 := match rest with
          | '+' :: t => t
          | '-' :: t => t
          | _ => rest
        let es := r4.takeWhile Char.isDigit
        !es.isEmpty && (r4.drop es.length).isEmpty
      else false

/-- Matcher for the regex 0 followed by one or more digits
(second alternative of isNumericLike; also used by claim C7). -/
def matchLeadingZeroInt (s : Str) : Bool :=
  match s with
  | '0' :: rest => !rest.isEmpty && rest.all Char.isDigit
  | _ => false

/-- Source isNumericLike. -/
def isNumericLike (value : Str) : Bool :=
  matchLooseNumber value || matchLeadingZeroInt value

/-- Requires exactly n decimal digits at the front; returns the rest. -/
def eatDigits : Nat → Str → Option Str
  | 0, s => some s
  | n+1, c :: rest => if c.isDigit then eatDigits n rest else none
  | _+1, [] => none

/-- Requires a single literal character at the front; returns the rest. -/
def eatChar (c : Char) : Str → Option Str
  | d :: rest => if d = c then some rest else none
  | [] => none

/-- Source isISOTimestamp regex:
dddd-dd-ddTdd:dd:dd with optional .ddd and optional Z. -/
def isISOTimestamp (value : Str) : Bool :=
  (do
    let r ← eatDigits 4 value
    let r ← eatChar '-' r
    let r ← eatDigits 2 r
    let r ← eatChar '-' r
    let r ← eatDigits 2 r
    let r ← eatChar 'T' r
    let r ← eatDigits 2 r
    let r ← eatChar ':' r
    let r ← eatDigits 2 r
    let r ← eatChar ':' r
    let r ← eatDigits 2 r
    let r := match eatChar '.' r with
      | some r2 => match eatDigits 3 r2 with
        | some r3 => r3
        | none => r
      | none => r
    let r := match eatChar 'Z' r with
      | some r2 => r2
      | none => r
    if r.isEmpty then some () else none).isSome

/-- Source isSafeUnquoted. -/
def isSafeUnquoted (value : Str) (delimiter : Char) : Bool :=
  if value.isEmpty then false
  else if value ≠ jsTrim value then false
  else if isBooleanOrNullLiteral value || isNumericLike value then false
  else if value.contains ':' && !isISOTimestamp value then false
  else if value.contains '"' || value.contains '\\' then false
  else if value.any (fun c => c = '[' || c = ']' || c = '\x7b' || c = '\x7d') then false
  else if value.any (fun c => c = '\n' || c = '\r' || c = '\t') then false
  else if value.contains delimiter then false
  else if value.head? = some '-' then false
  else true

/-- Source encodeStringLiteral. -/
def encodeStringLiteral (value : Str) (delimiter : Char) : Str :=
  if isSafeUnquoted value delimiter then value
  else '"' :: escapeString value ++ ['"']

/-- Source encodePrimitive.  The source function is typed over primitives
only; on the (unreachable at every call site) array and object cases the
embedding returns the empty string. -/
def encodePrimitive (v : JsonValue) (delimiter : Char) : Str :=
  match v with
  | .null => "null".data
  | .bool b => if b then "true".data else "false".data
  | .num q => numToStr q
  | .str s => encodeStringLiteral s delimiter
  | _ => []

/-- Matcher for the regex of isValidUnquotedKey: a letter or underscore,
then letters, digits, underscores or dots. -/
def matchUnquotedKey (key : Str) : Bool :=
  match key with
  | [] => false
  | c :: rest =>
    (c.isAlpha || c = '_') &&
      rest.all (fun d => d.isAlphanum || d = '_' || d = '.')

/-- Source isValidUnquotedKey. -/
def isValidUnquotedKey (key : Str) : Bool := matchUnquotedKey key

/-- Source encodeKey. -/
def encodeKey (key : Str) : Str :=
  if isValidUnquotedKey key then key
  else '"' :: escapeString key ++ ['"']

/-- JS Array.prototype.join with a separator string. -/
def joinSep (sep : Str) : List Str → Str
  | [] => []
  | [a] => a
  | a :: rest => a ++ sep ++ joinSep sep rest

/-- Source encodeAndJoinPrimitives. -/
def encodeAndJoinPrimitives (values : List JsonValue) (delimiter : Char) : Str :=
  joinSep [delimiter] (values.map (fun v => encodePrimitive v delimiter))

/-- Source formatHeader. -/
def formatHeader (length : Nat) (key : Option Str) (fields : Option (List Str))
    (delimiter : Delim) (lengthMarker : Bool) : Str :=
  (match key with
    | some k => encodeKey k
    | none => []) ++
  '[' :: (if lengthMarker then ['#'] else []) ++ natToStr length ++
    (if delimiter.char ≠ ',' then [delimiter.char] else []) ++ [']'] ++
  (match fields with
    | some fs =>
      '\x7b' :: joinSep [delimiter.char] (fs.map encodeKey) ++ ['\x7d']
    | none => []) ++
  [':']

/-- Line emission of the source LineWriter.push: indentation string of the
options repeated depth times, then the content. -/
def pushLine (opts : ResolvedOptions) (depth : Nat) (content : Str) : Str :=
  List.replicate (opts.indent * depth) ' ' ++ content

/-- Line emission of the source LineWriter.pushListItem. -/
def pushListItem (opts : ResolvedOptions) (depth : Nat) (content : Str) : Str :=
  pushLine opts depth ('-' :: ' ' :: content)

/-- Source LineWriter.toString: lines joined by newline. -/
def joinLines (lines : List Str) : Str := joinSep ['\n'] lines

/-- Source encodeInlineArrayLine. -/
def encodeInlineArrayLine (values : List JsonValue) (key : Option Str)
    (delimiter : Delim) (lengthMarker : Bool) : Str :=
  let header := formatHeader values.length key none delimiter lengthMarker
  if values.isEmpty then header
  else header ++ ' ' :: encodeAndJoinPrimitives values delimiter.char

/-- Source encodeArrayOfArraysAsListItems. -/
def encodeArrayOfArraysAsListItems (key : Option Str) (values : List JsonValue)
    (depth : Nat) (opts : ResolvedOptions) : List Str :=
  pushLine opts depth
      (formatHeader values.length key none opts.delimiter opts.lengthMarker) ::
    (values.map (fun v =>
      match v with
      | .arr l =>
        if isArrayOfPrimitives l then
          [pushListItem opts (depth + 1)
            (encodeInlineArrayLine l none opts.delimiter opts.lengthMarker)]
        else []
      | _ => [])).flatten

/-- Field lookup in an object (JS property access on the ordered map). -/
def lookupField (fields : List (Str × JsonValue)) (k : Str) : Option JsonValue :=
  fields.lookup k

/-- Source isTabularArray. -/
def isTabularArray (rows : List JsonValue) (header : List Str) : Bool :=
  rows.all (fun row =>
    match row with
    | .obj fields =>
      fields.length = header.length &&
        header.all (fun k =>
          match lookupField fields k with
          | some v => isJsonPrimitive v
          | none => false)
    | _ => false)

/-- Source extractTabularHeader. -/
def extractTabularHeader (rows : List JsonValue) : Option (List Str) :=
  match rows with
  | [] => none
  | firstRow :: _ =>
    match firstRow with
    | .obj ffields =>
      let firstKeys := ffields.map (fun p => p.1)
      if firstKeys.isEmpty then none
      else if isTabularArray rows firstKeys then some firstKeys
      else none
    | _ => none

/-- Source writeTabularRows.  A missing field is modelled as null; the
tabular guard at every call site rules that case out. -/
def writeTabularRows (rows : List JsonValue) (header : List Str) (depth : Nat)
    (opts : ResolvedOptions) : List Str :=
  rows.map (fun row =>
    let fields := match row with | .obj f => f | _ => []
    let values := header.map (fun k => (lookupField fields k).getD .null)
    pushLine opts depth (encodeAndJoinPrimitives values opts.delimiter.char))

/-- Source encodeArrayOfObjectsAsTabular. -/
def encodeArrayOfObjectsAsTabular (key : Option Str) (rows : List JsonValue)
    (header : List Str) (depth : Nat) (opts : ResolvedOptions) : List Str :=
  pushLine opts depth
      (formatHeader rows.length key (some header) opts.delimiter opts.lengthMarker) ::
    writeTabularRows rows header (depth + 1) opts

mutual

/-- Source encodeObject: one encodeKeyValuePair per field, in order. -/
def encodeObjectLines : Nat → List (Str × JsonValue) → Nat → ResolvedOptions → List Str
  | 0, _, _, _ => []
  | _+1, [], _, _ => []
  | fuel+1, (k, v) :: rest, depth, opts =>
    encodeKeyValuePairLines fuel k v depth opts ++ encodeObjectLines fuel rest depth opts
termination_by structural fuel => fuel

/-- Source encodeKeyValuePair. -/
def encodeKeyValuePairLines : Nat → Str → JsonValue → Nat → ResolvedOptions → List Str
  | 0, _, _, _, _ => []
  | fuel+1, key, value, depth, opts =>
    if isJsonPrimitive value then
      [pushLine opts depth
        (encodeKey key ++ ':' :: ' ' :: encodePrimitive value opts.delimiter.char)]
    else
      match value with
      | .arr items => encodeArrayLines fuel (some key) items depth opts
      | .obj fields =>
        if fields.isEmpty then [pushLine opts depth (encodeKey key ++ [':'])]
        else
          pushLine opts depth (encodeKey key ++ [':']) ::
            encodeObjectLines fuel fields (depth + 1) opts
      | _ => []
termination_by structural fuel => fuel

/-- Source encodeArray: shape selection between empty, inline primitive,
array-of-primitive-arrays, tabular, and mixed list form. -/
def encodeArrayLines : Nat → Option Str → List JsonValue → Nat → ResolvedOptions → List Str
  | 0, _, _, _, _ => []
  | fuel+1, key, items, depth, opts =>
    if items.isEmpty then
      [pushLine opts depth (formatHeader 0 key none opts.delimiter opts.lengthMarker)]
    else if isArrayOfPrimitives items then
      [pushLine opts depth (encodeInlineArrayLine items key opts.delimiter opts.lengthMarker)]
    else if isArrayOfArrays items &&
        items.all (fun v => isJsonArrayV v &&
          (match v with | .arr l => isArrayOfPrimitives l | _ => false)) then
      encodeArrayOfArraysAsListItems key items depth opts
    else if isArrayOfObjects items then
      match extractTabularHeader items with
      | some header => encodeArrayOfObjectsAsTabular key items header depth opts
      | none => encodeMixedArrayLines fuel key items depth opts
    else encodeMixedArrayLines fuel key items depth opts
termination_by structural fuel => fuel

/-- Source encodeMixedArrayAsListItems. -/
def encodeMixedArrayLines : Nat → Option Str → List JsonValue → Nat → ResolvedOptions → List Str
  | 0, _, _, _, _ => []
  | fuel+1, key, items, depth, opts =>
    pushLine opts depth
        (formatHeader items.length key none opts.delimiter opts.lengthMarker) ::
      encodeListItemsLines fuel items (depth + 1) opts
termination_by structural fuel => fuel

/-- Loop body of encodeMixedArrayAsListItems: encodeListItemValue per item. -/
def encodeListItemsLines : Nat → List JsonValue → Nat → ResolvedOptions → List Str
  | 0, _, _, _ => []
  | _+1, [], _, _ => []
  | fuel+1, item :: rest, depth, opts =>
    encodeListItemValueLines fuel item depth opts ++ encodeListItemsLines fuel rest depth opts
termination_by structural fuel => fuel

/-- Source encodeListItemValue.  An array item that is not an array of
primitives produces no output at all (no branch of the source matches). -/
def encodeListItemValueLines : Nat → JsonValue → Nat → ResolvedOptions → List Str
  | 0, _, _, _ => []
  | fuel+1, value, depth, opts =>
    if isJsonPrimitive value then
      [pushListItem opts depth (encodePrimitive value opts.delimiter.char)]
    else
      match value with
      | .arr l =>
        if isArrayOfPrimitives l then
          [pushListItem opts depth
            (encodeInlineArrayLine l none opts.delimiter opts.lengthMarker)]
        else []
      | .obj fields => encodeObjectAsListItemLines fuel fields depth opts
      | _ => []
termination_by structural fuel => fuel

/-- Source encodeObjectAsListItem: first field fused onto the list-item line,
remaining fields emitted one indent level deeper. -/
def encodeObjectAsListItemLines : Nat → List (Str × JsonValue) → Nat → ResolvedOptions → List Str
  | 0, _, _, _ => []
  | _+1, [], depth, opts => [pushLine opts depth ['-']]
  | fuel+1, (firstKey, firstValue) :: rest, depth, opts =>
    let encodedKey := encodeKey firstKey
    (if isJsonPrimitive firstValue then
      [pushListItem opts depth
        (encodedKey ++ ':' :: ' ' :: encodePrimitive firstValue opts.delimiter.char)]
    else
      match firstValue with
      | .arr l =>
        if isArrayOfPrimitives l then
          [pushListItem opts depth
            (encodeInlineArrayLine l (some firstKey) opts.delimiter opts.lengthMarker)]
        else if isArrayOfObjects l then
          match extractTabularHeader l with
          | some header =>
            pushListItem opts depth
                (formatHeader l.length (some firstKey) (some header)
                  opts.delimiter opts.lengthMarker) ::
              writeTabularRows l header (depth + 1) opts
          | none =>
            pushListItem opts depth (encodedKey ++ '[' :: natToStr l.length ++ "]:".data) ::
              encodeNonUniformObjectItems fuel l (depth + 1) opts
        else
          pushListItem opts depth (encodedKey ++ '[' :: natToStr l.length ++ "]:".data) ::
            encodeListItemsLines fuel l (depth + 1) opts
      | .obj nested =>
        if nested.isEmpty then [pushListItem opts depth (encodedKey ++ [':'])]
        else
          pushListItem opts depth (encodedKey ++ [':']) ::
            encodeObjectLines fuel nested (depth + 2) opts
      | _ => []) ++
    encodeObjectLines fuel rest (depth + 1) opts
termination_by structural fuel => fuel

/-- Loop of the non-uniform array-of-objects fallback inside
encodeObjectAsListItem: every object item becomes a list item. -/
def encodeNonUniformObjectItems : Nat → List JsonValue → Nat → ResolvedOptions → List Str
  | 0, _, _, _ => []
  | _+1, [], _, _ => []
  | fuel+1, item :: rest, depth, opts =>
    (match item with
      | .obj f => encodeObjectAsListItemLines fuel f depth opts
      | _ => []) ++ encodeNonUniformObjectItems fuel rest depth opts
termination_by structural fuel => fuel

end

mutual

/-- Size of a value, used to allot fuel for the encoder. -/
def jsonSize : JsonValue → Nat
  | .null | .bool _ | .num _ | .str _ => 1
  | .arr items => 1 + jsonSizeList items
  | .obj fields => 1 + jsonSizeFields fields

/-- Size of a list of values. -/
def jsonSizeList : List JsonValue → Nat
  | [] => 0
  | v :: rest => 1 + jsonSize v + jsonSizeList rest

/-- Size of an object field list. -/
def jsonSizeFields : List (Str × JsonValue) → Nat
  | [] => 0
  | (_, v) :: rest => 1 + jsonSize v + jsonSizeFields rest

end

/-- Fuel that exceeds every recursion depth of the encoder on the value. -/
def encodeFuel (v : JsonValue) : Nat := 4 * jsonSize v + 4

/-- Lines produced by the source encodeValue for a non-primitive value. -/
def encodeValueLines (v : JsonValue) (opts : ResolvedOptions) : List Str :=
  match v with
  | .arr items => encodeArrayLines (encodeFuel v) none items 0 opts
  | .obj fields => encodeObjectLines (encodeFuel v) fields 0 opts
  | _ => []

/-- Source encodeValue. -/
def encodeValueStr (v : JsonValue) (opts : ResolvedOptions) : Str :=
  if isJsonPrimitive v then encodePrimitive v opts.delimiter.char
  else joinLines (encodeValueLines v opts)

/-- Source encode.  The source first applies normalizeValue, which is the
identity on trees already in the JsonValue domain of this embedding
(no negative zero, no non-finite numbers, no exotic host objects). -/
def encode (input : JsonValue) (options : EncodeOptions) : Str :=
  encodeValueStr input (resolveOptions options)

/-- Source DecodeOptions (all fields optional). -/
structure DecodeOptions where
  strict : Option Bool := none
  indent : Option Nat := none

/-- Options after the resolution in the Scanner constructor: strict defaults
to true, indent defaults to 2. -/
structure ScanOptions where
  strict : Bool
  indent : Nat

/-- Option resolution in the Scanner constructor. -/
def resolveDecodeOptions (o : DecodeOptions) : ScanOptions :=
  { strict := o.strict.getD true, indent := o.indent.getD 2 }

/-- Token kinds of the scanner (the source also declares a NEWLINE kind that
is never constructed). -/
inductive TokenType where
  | key | value | colon | arrayHeader | listItem | eof

/-- Source arrayInfo payload of an ARRAY_HEADER token. -/
structure ArrayInfo where
  key : Option Str
  length : Nat
  fields : Option (List Str)
  delimiter : Char
  inlineValues : Option Str

/-- Source Token. -/
structure Token where
  type : TokenType
  value : Str
  indent : Nat
  line : Nat
  arrayInfo : Option ArrayInfo := none
  hadTabIndent : Bool

/-- Source IndentInfo. -/
structure IndentInfo where
  count : Nat
  hadTabIndent : Bool

/-- Digit-string to number (JS parseInt on a digit-only string). -/
def parseIntDigits (ds : Str) : Nat :=
  ds.foldl (fun n c => n * 10 + (c.toNat - 48)) 0

/-- Message of the strict-mode tab error in Scanner.getIndent. -/
def tabErrorMsg (lineNum : Nat) : String :=
  "Indentation error at line " ++ String.mk (natToStr lineNum) ++
    ": Tab character found in indentation. Use spaces only."

/-- Message of the strict-mode indent-multiple error in Scanner.getIndent. -/
def multipleErrorMsg (lineNum indent count : Nat) : String :=
  "Indentation error at line " ++ String.mk (natToStr lineNum) ++
    ": Expected indentation to be an exact multiple of " ++ String.mk (natToStr indent) ++
    ", but found " ++ String.mk (natToStr count) ++ " spaces."

/-- Character loop of Scanner.getIndent: spaces count one column; a tab is
fatal in strict mode and otherwise only sets the hadTabIndent flag; any
other character stops the scan. -/
def getIndentLoop (opts : ScanOptions) (lineNum : Nat) :
    Str → Nat → Bool → Except String IndentInfo
  | [], count, hadTab => .ok ⟨count, hadTab⟩
  | c :: rest, count, hadTab =>
    if c = ' ' then getIndentLoop opts lineNum rest (count + 1) hadTab
    else if c = '	' then
      if opts.strict then .error (tabErrorMsg lineNum)
      else getIndentLoop opts lineNum rest count true
    else .ok ⟨count, hadTab⟩

/-- Source Scanner.getIndent.  In strict mode a non-zero column count must be
an exact multiple of the indent option (with indent 0 the JS modulo yields
NaN, so any non-zero count is fatal, which the Nat modulo reproduces). -/
def getIndent (opts : ScanOptions) (line : Str) (lineNum : Nat) :
    Except String IndentInfo := do
  let info ← getIndentLoop opts lineNum line 0 false
  if opts.strict ∧ 0 < info.count ∧ info.count % opts.indent ≠ 0 then
    .error (multipleErrorMsg lineNum opts.indent info.count)
  else .ok info

/-- State machine of Scanner.findMainColon (first colon outside quotes). -/
def findMainColonAux : Str → Nat → Bool → Bool → Option Nat
  | [], _, _, _ => none
  | c :: rest, i, inQuotes, escNext =>
    if escNext then findMainColonAux rest (i + 1) inQuotes false
    else if c = '\\' then findMainColonAux rest (i + 1) inQuotes true
    else if c = '"' then findMainColonAux rest (i + 1) (!inQuotes) false
    else if !inQuotes && c = ':' then some i
    else findMainColonAux rest (i + 1) inQuotes false

/-- Source findMainColon (returns -1 in the source; none here). -/
def findMainColon (s : Str) : Option Nat := findMainColonAux s 0 false false

/-- State machine of splitByDelimiter (split outside quotes, escapes kept). -/
def splitByDelimiterAux (delim : Char) : Str → Str → Bool → Bool → List Str
  | [], current, _, _ => if current.isEmpty then [] else [current.reverse]
  | c :: rest, current, inQuotes, escNext =>
    if escNext then splitByDelimiterAux delim rest (c :: current) inQuotes false
    else if c = '\\' then splitByDelimiterAux delim rest (c :: current) inQuotes true
    else if c = '"' then splitByDelimiterAux delim rest (c :: current) (!inQuotes) false
    else if !inQuotes && c = delim then
      current.reverse :: splitByDelimiterAux delim rest [] inQuotes false
    else splitByDelimiterAux delim rest (c :: current) inQuotes false

/-- Source splitByDelimiter (identical in Scanner and Parser). -/
def splitByDelimiter (s : Str) (delim : Char) : List Str :=
  splitByDelimiterAux delim s [] false false

/-- Source unescapeString (identical in Scanner and Parser). -/
def unescapeString : Str → Except String Str
  | [] => .ok []
  | ['\\'] => .error "Invalid escape sequence: string ends with backslash"
  | '\\' :: c :: rest =>
    if c = 'n' then (fun r => '\n' :: r) <$> unescapeString rest
    else if c = 'r' then (fun r => '\r' :: r) <$> unescapeString rest
    else if c = 't' then (fun r => '\t' :: r) <$> unescapeString rest
    else if c = '"' then (fun r => '"' :: r) <$> unescapeString rest
    else if c = '\\' then (fun r => '\\' :: r) <$> unescapeString rest
    else .error ("Invalid escape sequence: \\" ++ String.mk [c])
  | c :: rest => (fun r => c :: r) <$> unescapeString rest

/-- Source unescapeKey (identical in Scanner and Parser).  JS substring
swaps its arguments when start exceeds end, so a lone double-quote key is
passed through unchanged. -/
def unescapeKey (key : Str) : Except String Str :=
  if key.head? = some '"' && key.getLast? = some '"' then
    unescapeString (if key.length < 2 then key else (key.drop 1).dropLast)
  else .ok key

/-- Captured groups of the shared array-header regex. -/
structure HeaderMatch where
  g1 : Option Str
  hash : Bool
  digits : Str
  delim : Option Char
  fieldsRaw : Option Str
  tail : Str

/-- Deterministic matcher for the anchored header regex
(optional bracket-free key, bracket, optional hash, digits, optional
delimiter character, closing bracket, optional braced field list, colon,
optional whitespace, rest).  The regex backtracking never helps here: every
group is either delimited by characters it cannot contain or fails outright,
so the greedy first attempt is the only possible match. -/
def matchHeaderPattern (s : Str) : Option HeaderMatch :=
  let g1 := s.takeWhile (fun c => c ≠ '[' && c ≠ ']')
  let rest1 := s.drop g1.length
  match rest1 with
  | '[' :: r2 =>
    let hash := r2.head? = some '#'
    let r3 := if hash then r2.drop 1 else r2
    let ds := r3.takeWhile Char.isDigit
    if ds.isEmpty then none else
    let r4 := r3.drop ds.length
    let hasDelim := match r4.head? with
      | some c => c = ',' || c = '\t' || c = '|'
      | none => false
    let dl := if hasDelim then r4.head? else none
    let r5 := if hasDelim then r4.drop 1 else r4
    match r5 with
    | ']' :: r6 =>
      match r6 with
      | '\x7b' :: r7 =>
        let fs := r7.takeWhile (fun c => c ≠ '\x7d')
        let r8 := r7.drop fs.length
        if fs.isEmpty then none
        else
          (match r8 with
           | '\x7d' :: ':' :: r9 =>
             some ⟨if g1.isEmpty then none else some g1, hash, ds, dl, some fs,
               r9.dropWhile jsWsChar⟩
           | _ => none)
      | ':' :: r9 =>
        some ⟨if g1.isEmpty then none else some g1, hash, ds, dl, none,
          r9.dropWhile jsWsChar⟩
      | _ => none
    | _ => none
  | _ => none

/-- Source Scanner.parseArrayHeader: regex match plus field unescaping;
whitespace-only keys collapse to an absent key, inline values are kept
only when non-blank. -/
def scanParseArrayHeader (s : Str) : Except String (Option ArrayInfo) :=
  match matchHeaderPattern s with
  | none => .ok none
  | some m => do
    let delimiter := m.delim.getD ','
    let key := match m.g1 with
      | some k => (fun t => if List.isEmpty t then none else some t) (jsTrim k)
      | none => none
    let fields ← match m.fieldsRaw with
      | some fstr => do
        let fs ← (splitByDelimiter fstr delimiter).mapM (fun f => unescapeKey (jsTrim f))
        pure (some fs)
      | none => pure none
    let tl := jsTrim m.tail
    let inline := if List.isEmpty tl then none else some tl
    .ok (some ⟨key, parseIntDigits m.digits, fields, delimiter, inline⟩)

/-- Strict-mode message for a blank line inside an array; the array kind
depends on the last token scanned so far. -/
def blankLineMsg (acc : List Token) : String :=
  let isList := match acc.getLast? with
    | some t => match t.type with | .listItem => true | _ => false
    | none => false
  "Blank line found inside " ++ (if isList then "list array" else "tabular array") ++
    " (strict mode)"

/-- First following non-blank line together with its zero-based index. -/
def peekNonBlank : List Str → Nat → Option (Str × Nat)
  | [], _ => none
  | l :: rest, idx =>
    if List.isEmpty (jsTrim l) then peekNonBlank rest (idx + 1) else some (l, idx)

/-- Main loop of Scanner.scan over the split lines, carrying the zero-based
line index, the inside-array flag with its header indent (the -1 sentinel of
the source kept as an integer), and the tokens emitted so far. -/
def scanAux (opts : ScanOptions) :
    List Str → Nat → Bool → Int → List Token → Except String (List Token)
  | [], i, _, _, acc => .ok (acc ++ [⟨.eof, [], 0, i, none, false⟩])
  | line :: rest, i, insideArray, arrayIndent, acc =>
    if List.isEmpty (jsTrim line) then
      if opts.strict ∧ insideArray then
        match peekNonBlank rest (i + 1) with
        | some (nextLine, idx) => do
          let nextIndent ← getIndent opts nextLine (idx + 1)
          if (nextIndent.count : Int) > arrayIndent then .error (blankLineMsg acc)
          else scanAux opts rest (i + 1) insideArray arrayIndent acc
        | none => scanAux opts rest (i + 1) insideArray arrayIndent acc
      else scanAux opts rest (i + 1) insideArray arrayIndent acc
    else do
      let indentInfo ← getIndent opts line (i + 1)
      let indent := indentInfo.count
      let hadTab := indentInfo.hadTabIndent
      let trimmed := jsTrim line
      let arrayCheck ← scanParseArrayHeader trimmed
      let insideArray2 := if arrayCheck.isSome then true
        else if insideArray ∧ (indent : Int) ≤ arrayIndent then false
        else insideArray
      let arrayIndent2 := if arrayCheck.isSome then (indent : Int)
        else if insideArray ∧ (indent : Int) ≤ arrayIndent then (-1 : Int)
        else arrayIndent
      if "- ".data.isPrefixOf trimmed then
        scanAux opts rest (i + 1) insideArray2 arrayIndent2
          (acc ++ [⟨.listItem, trimmed.drop 2, indent, i, none, hadTab⟩])
      else match arrayCheck with
      | some info =>
        scanAux opts rest (i + 1) insideArray2 arrayIndent2
          (acc ++ [⟨.arrayHeader, trimmed, indent, i, some info, hadTab⟩])
      | none =>
        let pushValue := scanAux opts rest (i + 1) insideArray2 arrayIndent2
          (acc ++ [⟨.value, trimmed, indent, i, none, hadTab⟩])
        if trimmed.contains ':' then
          match findMainColon trimmed with
          | some ci =>
            let key := jsTrim (trimmed.take ci)
            let value := jsTrim (trimmed.drop (ci + 1))
            let isQuotedKey := key.head? = some '"' && key.getLast? = some '"'
            let looksLikeKeyValue := isQuotedKey ||
              (!key.contains ',' && key.length < 100 &&
                !(!key.isEmpty && key.all (fun c => c.isDigit || c = ',' || jsWsChar c)))
            if looksLikeKeyValue then do
              let ukey ← unescapeKey key
              let withKV := acc ++
                [⟨.key, ukey, indent, i, none, hadTab⟩,
                 ⟨.colon, [':'], indent, i, none, hadTab⟩]
              let withVal := if value.isEmpty then withKV
                else withKV ++ [⟨.value, value, indent, i, none, hadTab⟩]
              scanAux opts rest (i + 1) insideArray2 arrayIndent2 withVal
            else pushValue
          | none => pushValue
        else pushValue

/-- Source Scanner.scan on an input string. -/
def scan (input : Str) (opts : ScanOptions) : Except String (List Token) :=
  scanAux opts (jsSplit '\n' input) 0 false (-1) []

/-- Matcher for the strict numeric regex of Parser.parsePrimitive:
optional minus, zero or a nonzero-led digit run, optional fraction,
optional exponent. -/
def strictNumberShape (s : Str) : Bool :=
  let s1 := match s with
    | '-' :: r => r
    | _ => s
  let ip : Option Str := match s1 with
    | '0' :: r => some r
    | c :: r => if c.isDigit then some (r.dropWhile Char.isDigit) else none
    | [] => none
  match ip with
  | none => false
  | some r1 =>
    let r2 : Option Str := match r1 with
      | '.' :: t =>
        let ds := t.takeWhile Char.isDigit
        if ds.isEmpty then none else some (t.drop ds.length)
      | _ => some r1
    match r2 with
    | none => false
    | some r3 =>
      match r3 with
      | [] => true
      | e :: t =>
        if e = 'e' || e = 'E' then
          let t2 := match t with
            | '+' :: u => u
            | '-' :: u => u
            | _ => t
          let ds := t2.takeWhile Char.isDigit
          !ds.isEmpty && (t2.drop ds.length).isEmpty
        else false

/-- Exact decimal value of a token in the strict numeric shape (JS Number of
the token, with the rounding to double abstracted away). -/
def strToNum (s : Str) : Dec10 :=
  let sgn : Int := if s.head? = some '-' then -1 else 1
  let s1 := match s with
    | '-' :: r => r
    | _ => s
  let ip := s1.takeWhile Char.isDigit
  let r1 := s1.drop ip.length
  let fr := match r1 with
    | '.' :: t => t.takeWhile Char.isDigit
    | _ => []
  let r2 := match r1 with
    | '.' :: t => t.drop fr.length
    | _ => r1
  let ex : Int := match r2 with
    | e :: t =>
      if e = 'e' || e = 'E' then
        match t with
        | '+' :: u => (parseIntDigits (u.takeWhile Char.isDigit) : Int)
        | '-' :: u => -(parseIntDigits (u.takeWhile Char.isDigit) : Int)
        | _ => (parseIntDigits (t.takeWhile Char.isDigit) : Int)
      else 0
    | [] => 0
  Dec10.make
    (sgn * ((parseIntDigits ip : Int) * (10 : Int) ^ fr.length + (parseIntDigits fr : Int)))
    (ex - fr.length)

/-- The Number.isFinite test of the source on the converted token: under
round-to-nearest-even, a double conversion overflows to infinity exactly when
the exact absolute value reaches 2 to the 1024 minus 2 to the 970, that is
(2 to the 54 minus 1) times 2 to the 970; smaller values (including all
underflowing ones, which round to zero or a subnormal) stay finite.  A token
in the strict numeric shape never converts to NaN, so the isNaN half of the
source guard is vacuous. -/
def jsFinite (d : Dec10) : Bool :=
  if 0 ≤ d.e then d.m.natAbs * 10 ^ d.e.toNat < (2 ^ 54 - 1) * 2 ^ 970
  else d.m.natAbs < (2 ^ 54 - 1) * 2 ^ 970 * 10 ^ (-d.e).toNat

/-- Source Parser.parsePrimitive.  A strict-shape token is returned as a
number only when the converted double is finite; an overflowing token falls
through to the string cases, exactly as in the source. -/
def parsePrimitive (value : Str) : Except String JsonValue :=
  let trimmed := jsTrim value
  if trimmed = "null".data then .ok .null
  else if trimmed = "true".data then .ok (.bool true)
  else if trimmed = "false".data then .ok (.bool false)
  else if strictNumberShape trimmed && jsFinite (strToNum trimmed) then
    .ok (.num (strToNum trimmed))
  else if trimmed.head? = some '"' then
    if trimmed.getLast? ≠ some '"' ∨ trimmed.length < 2 then
      .error "Unterminated quoted string"
    else JsonValue.str <$> unescapeString ((trimmed.drop 1).dropLast)
  else .ok (.str trimmed)

/-- Match result of Parser.parseArrayHeaderString (valuesStr always a
string, possibly empty). -/
structure HeaderStrMatch where
  key : Option Str
  length : Nat
  fields : Option (List Str)
  delimiter : Char
  valuesStr : Str

/-- Source Parser.parseArrayHeaderString: same regex as the scanner, values
group kept verbatim. -/
def parseArrayHeaderString (s : Str) : Except String (Option HeaderStrMatch) :=
  match matchHeaderPattern s with
  | none => .ok none
  | some m => do
    let delimiter := m.delim.getD ','
    let key := match m.g1 with
      | some k => (fun t => if List.isEmpty t then none else some t) (jsTrim k)
      | none => none
    let fields ← match m.fieldsRaw with
      | some fstr => do
        let fs ← (splitByDelimiter fstr delimiter).mapM (fun f => unescapeKey (jsTrim f))
        pure (some fs)
      | none => pure none
    .ok (some ⟨key, parseIntDigits m.digits, fields, delimiter, m.tail⟩)

/-- Source Parser.parseInlineArray. -/
def parseInlineArray (info : HeaderStrMatch) : Except String (List JsonValue) :=
  let values := splitByDelimiter info.valuesStr info.delimiter
  match info.fields with
  | some fs =>
    if fs.length > 0 then .ok []
    else values.mapM (fun v => parsePrimitive (jsTrim v))
  | none => values.mapM (fun v => parsePrimitive (jsTrim v))

/-- JS object property assignment on the ordered field list: an existing key
is overwritten in place, a new key is appended. -/
def objInsert (fields : List (Str × JsonValue)) (k : Str) (v : JsonValue) :
    List (Str × JsonValue) :=
  if fields.any (fun p => p.1 = k) then
    fields.map (fun p => if p.1 = k then (k, v) else p)
  else fields ++ [(k, v)]

/-- JS Object.assign onto an ordered field list. -/
def objAssign (base extra : List (Str × JsonValue)) : List (Str × JsonValue) :=
  extra.foldl (fun acc p => objInsert acc p.1 p.2) base

/-- Current token (source Parser.current), none once past the end. -/
def curToken (tokens : List Token) : Option Token := tokens.head?

/-- Error messages of the count checks in Parser.parseArray. -/
def arrLenMsg (l f : Nat) : String :=
  "Array length mismatch: expected " ++ String.mk (natToStr l) ++
    " elements, but found " ++ String.mk (natToStr f)

/-- Message of the tabular row count check. -/
def rowCountMsg (l f : Nat) : String :=
  "Tabular array row count mismatch: expected " ++ String.mk (natToStr l) ++
    " rows, but found " ++ String.mk (natToStr f)

/-- Message of the tabular per-row cell count check. -/
def cellCountMsg (l f : Nat) : String :=
  "Tabular row value count mismatch: expected " ++ String.mk (natToStr l) ++
    " fields, but found " ++ String.mk (natToStr f)

/-- Message of the list array length check. -/
def listLenMsg (l f : Nat) : String :=
  "List array length mismatch: expected " ++ String.mk (natToStr l) ++
    " items, but found " ++ String.mk (natToStr f)

/-- Message of the missing-colon error raised on a deeper VALUE lookahead. -/
def nestedValueMsg (v : Str) : String :=
  "Missing colon after key \"" ++ String.mk v ++ "\" (found nested value without colon)"

/-- Message of the missing-colon error in Parser.parseObject. -/
def missingColonMsg (k : Str) : String :=
  "Missing colon after key \"" ++ String.mk k ++ "\""

/-- Lookahead row count of the tabular branch of Parser.parseArray. -/
def countTabularRows : List Token → Nat → Nat
  | [], _ => 0
  | t :: rest, arrayIndent =>
    match t.type with
    | .eof => 0
    | .value => if t.indent ≤ arrayIndent then 0 else 1 + countTabularRows rest arrayIndent
    | _ => 0

/-- Row-object construction of the tabular loop: one field per header name,
with the matching cell trimmed (a missing cell reads as the empty string). -/
def buildRow : List Str → List Str → List (Str × JsonValue) →
    Except String (List (Str × JsonValue))
  | [], _, acc => .ok acc
  | f :: fs, v :: vs, acc => do
    let p ← parsePrimitive (jsTrim v)
    buildRow fs vs (objInsert acc f p)
  | f :: fs, [], acc => do
    let p ← parsePrimitive []
    buildRow fs [] (objInsert acc f p)

/-- Tabular row loop of Parser.parseArray, iterating the declared length,
breaking on EOF, dedent, or a non-VALUE token. -/
def parseTabularRows : Nat → List Str → Char → Nat → List Token → List JsonValue →
    Except String (List JsonValue × List Token)
  | 0, _, _, _, tokens, acc => .ok (acc, tokens)
  | i + 1, fields, delim, arrayIndent, tokens, acc =>
    match tokens with
    | [] => .ok (acc, tokens)
    | rowToken :: rest =>
      match rowToken.type with
      | .eof => .ok (acc, tokens)
      | .value =>
        if rowToken.indent ≤ arrayIndent then .ok (acc, tokens)
        else
          let values := splitByDelimiter rowToken.value delim
          if values.length ≠ fields.length then
            .error (cellCountMsg fields.length values.length)
          else do
            let obj ← buildRow fields values []
            parseTabularRows i fields delim arrayIndent rest (acc ++ [.obj obj])
      | _ =>
        if rowToken.indent ≤ arrayIndent then .ok (acc, tokens)
        else .ok (acc, tokens)

/-- Fuel-exhaustion message; unreachable from decode, whose fuel bound
exceeds every recursion depth of the parser on the scanned tokens. -/
def fuelMsg : String := "internal: fuel exhausted"

mutual

/-- Source Parser.parseArray. -/
def parseArrayM : Nat → List Token → Except String (List JsonValue × List Token)
  | 0, _ => .error fuelMsg
  | fuel + 1, tokens =>
    match tokens with
    | [] => .error fuelMsg
    | headerToken :: rest =>
      match headerToken.arrayInfo with
      | none => .ok ([], rest)
      | some info =>
        let arrayIndent := headerToken.indent
        if info.length = 0 then .ok ([], rest)
        else
          match info.inlineValues with
          | some iv =>
            let values := splitByDelimiter iv info.delimiter
            if values.length ≠ info.length then
              .error (arrLenMsg info.length values.length)
            else do
              let vs ← values.mapM (fun v => parsePrimitive (jsTrim v))
              .ok (vs, rest)
          | none =>
            let fieldsPresent := match info.fields with
              | some fs => decide (fs.length > 0)
              | none => false
            if fieldsPresent then
              let fields := (info.fields).getD []
              let rowCount := countTabularRows rest arrayIndent
              if rowCount ≠ info.length then
                .error (rowCountMsg info.length rowCount)
              else parseTabularRows info.length fields info.delimiter arrayIndent rest []
            else
              match curToken rest with
              | some c =>
                match c.type with
                | .listItem => do
                  let (items, rest2) ← parseListItemsM fuel (arrayIndent + 1) rest []
                  let hasComplexNesting := items.any (fun item =>
                    match item with
                    | .obj fs => fs.any (fun p => isJsonArrayV p.2)
                    | _ => false)
                  if ¬hasComplexNesting ∧ items.length ≠ info.length then
                    .error (listLenMsg info.length items.length)
                  else .ok (items, rest2)
                | .value =>
                  if c.indent > arrayIndent then
                    let values := splitByDelimiter c.value info.delimiter
                    if values.length ≠ info.length then
                      .error (arrLenMsg info.length values.length)
                    else do
                      let vs ← values.mapM (fun v => parsePrimitive (jsTrim v))
                      .ok (vs, rest.tail)
                  else .ok ([], rest)
                | _ => .ok ([], rest)
              | none => .ok ([], rest)
termination_by structural fuel => fuel

/-- Shared continuation of the KEY-COLON branches of Parser.parse and
Parser.parseObject: inspects the lookahead after the colon and produces the
bound value, or none when no branch of the source assigns one. -/
def parseValueAfterColonM : Nat → Token → Bool → List Token →
    Except String (Option JsonValue × List Token)
  | 0, _, _, _ => .error fuelMsg
  | fuel + 1, keyTok, compactZero, tokens =>
    let nt? := curToken tokens
    let deeperValue := match nt? with
      | some nt => (match nt.type with | .value => true | _ => false) &&
          decide (nt.indent > keyTok.indent)
      | none => false
    if deeperValue then
      .error (nestedValueMsg ((nt?.map Token.value).getD []))
    else
      let isCompactNested := compactZero && (match nt? with
        | some nt => decide (nt.indent = 0) &&
            (match nt.type with | .key => true | _ => false) && !nt.hadTabIndent
        | none => false)
      let isTabSibling := match nt? with
        | some nt => (match nt.type with | .key => true | _ => false) &&
            nt.hadTabIndent && decide (nt.indent = keyTok.indent)
        | none => false
      if isTabSibling then .ok (some (.obj []), tokens)
      else
        let bigIf := match nt? with
          | none => true
          | some nt => (match nt.type with | .eof => true | _ => false) ||
              decide (nt.indent > keyTok.indent) || isCompactNested
        if bigIf then
          match nt? with
          | some nt =>
            match nt.type with
            | .arrayHeader => do
              let (a, r) ← parseArrayM fuel tokens
              .ok (some (.arr a), r)
            | .listItem => do
              let (a, r) ← parseListItemsM fuel nt.indent tokens []
              .ok (some (.arr a), r)
            | .key => do
              let (fs, r) ← parseObjectM fuel nt.indent tokens []
              .ok (some (.obj fs), r)
            | _ => .ok (some (.obj []), tokens)
          | none => .ok (some (.obj []), tokens)
        else
          match nt? with
          | some nt =>
            match nt.type with
            | .value => do
              let p ← parsePrimitive nt.value
              .ok (some p, tokens.tail)
            | .arrayHeader => do
              let (a, r) ← parseArrayM fuel tokens
              .ok (some (.arr a), r)
            | _ => .ok (none, tokens)
          | none => .ok (none, tokens)
termination_by structural fuel => fuel

/-- Source Parser.parseObject (loop with its accumulated fields). -/
def parseObjectM : Nat → Nat → List Token → List (Str × JsonValue) →
    Except String (List (Str × JsonValue) × List Token)
  | 0, _, _, _ => .error fuelMsg
  | fuel + 1, baseIndent, tokens, acc =>
    match tokens with
    | [] => .ok (acc, tokens)
    | token :: rest =>
      match token.type with
      | .eof => .ok (acc, tokens)
      | _ =>
        if token.indent < baseIndent then .ok (acc, tokens)
        else if token.indent > baseIndent ∧ baseIndent > 0 then .ok (acc, tokens)
        else
          match token.type with
          | .key => do
            match curToken rest with
            | some colonTok =>
              match colonTok.type with
              | .colon => do
                let (bound, rest2) ←
                  parseValueAfterColonM fuel token (decide (baseIndent = 0)) rest.tail
                let acc2 := match bound with
                  | some v => objInsert acc token.value v
                  | none => acc
                parseObjectM fuel baseIndent rest2 acc2
              | _ => .error (missingColonMsg token.value)
            | none => .error (missingColonMsg token.value)
          | .arrayHeader =>
            match token.arrayInfo with
            | some info =>
              match info.key with
              | some k => do
                let (a, rest2) ← parseArrayM fuel tokens
                parseObjectM fuel baseIndent rest2 (objInsert acc k (.arr a))
              | none => .ok (acc, tokens)
            | none => .ok (acc, tokens)
          | _ => .ok (acc, tokens)
termination_by structural fuel => fuel

/-- Merge step shared by the list-item branches: deeper KEY or ARRAY_HEADER
tokens become additional properties of the current list-item object. -/
def mergeDeeperM : Nat → Nat → List (Str × JsonValue) → List Token →
    Except String (List (Str × JsonValue) × List Token)
  | 0, _, _, _ => .error fuelMsg
  | fuel + 1, itemIndent, obj, tokens =>
    match curToken tokens with
    | some nt =>
      if decide (nt.indent > itemIndent) &&
          (match nt.type with | .key => true | .arrayHeader => true | _ => false) then do
        let (nested, rest) ← parseObjectM fuel nt.indent tokens []
        .ok (objAssign obj nested, rest)
      else .ok (obj, tokens)
    | none => .ok (obj, tokens)
termination_by structural fuel => fuel

/-- Source Parser.parseListItems (loop with its accumulated items). -/
def parseListItemsM : Nat → Nat → List Token → List JsonValue →
    Except String (List JsonValue × List Token)
  | 0, _, _, _ => .error fuelMsg
  | fuel + 1, baseIndent, tokens, acc =>
    match tokens with
    | [] => .ok (acc, tokens)
    | token :: rest =>
      match token.type with
      | .listItem =>
        if token.indent < baseIndent then .ok (acc, tokens)
        else do
          let content := token.value
          let itemIndent := token.indent
          let fullMatch ← parseArrayHeaderString content
          let isKeylessHeader := match fullMatch with
            | some fm => fm.key.isNone
            | none => false
          match fullMatch, isKeylessHeader with
          | some fm, true => do
            let a ← parseInlineArray fm
            parseListItemsM fuel baseIndent rest (acc ++ [.arr a])
          | _, _ =>
            match findMainColon content with
            | some ci => do
              let key := jsTrim (content.take ci)
              let value := jsTrim (content.drop (ci + 1))
              let keyArrayMatch ← parseArrayHeaderString (key ++ [':'])
              let keyedHeader := match keyArrayMatch with
                | some km => km.key
                | none => none
              match keyArrayMatch, keyedHeader with
              | some km, some actualKey => do
                let (obj1, rest2) ←
                  if !value.isEmpty then do
                    let inlineMatch ← parseArrayHeaderString (key ++ ':' :: ' ' :: value)
                    match inlineMatch with
                    | some im => do
                      let a ← parseInlineArray im
                      pure ([(actualKey, JsonValue.arr a)], rest)
                    | none => pure ([], rest)
                  else
                    match curToken rest with
                    | some nt =>
                      if nt.indent > itemIndent then do
                        let fakeTok : Token :=
                          ⟨.arrayHeader, key ++ [':'], itemIndent, token.line,
                            some ⟨some actualKey, km.length, km.fields, km.delimiter, none⟩,
                            false⟩
                        let (a, r) ← parseArrayM fuel (fakeTok :: rest)
                        pure ([(actualKey, JsonValue.arr a)], r)
                      else pure ([(actualKey, JsonValue.arr [])], rest)
                    | none => pure ([(actualKey, JsonValue.arr [])], rest)
                let (obj2, rest3) ← mergeDeeperM fuel itemIndent obj1 rest2
                parseListItemsM fuel baseIndent rest3 (acc ++ [.obj obj2])
              | _, _ => do
                let arrayMatch ← parseArrayHeaderString value
                match arrayMatch with
                | some am => do
                  let ukey ← unescapeKey key
                  let (obj1, rest2) ←
                    if am.length = 0 then pure ([(ukey, JsonValue.arr [])], rest)
                    else if !am.valuesStr.isEmpty then do
                      let a ← parseInlineArray am
                      pure ([(ukey, JsonValue.arr a)], rest)
                    else
                      match curToken rest with
                      | some nt =>
                        if nt.indent > itemIndent then do
                          let fakeTok : Token :=
                            ⟨.arrayHeader, key ++ ':' :: ' ' :: value, itemIndent,
                              token.line,
                              some ⟨none, am.length, am.fields, am.delimiter, none⟩,
                              false⟩
                          let (a, r) ← parseArrayM fuel (fakeTok :: rest)
                          pure ([(ukey, JsonValue.arr a)], r)
                        else pure ([(ukey, JsonValue.arr [])], rest)
                      | none => pure ([(ukey, JsonValue.arr [])], rest)
                  let (obj2, rest3) ← mergeDeeperM fuel itemIndent obj1 rest2
                  parseListItemsM fuel baseIndent rest3 (acc ++ [.obj obj2])
                | none =>
                  if !value.isEmpty then do
                    let ukey ← unescapeKey key
                    let p ← parsePrimitive value
                    let (obj2, rest3) ← mergeDeeperM fuel itemIndent [(ukey, p)] rest
                    parseListItemsM fuel baseIndent rest3 (acc ++ [.obj obj2])
                  else do
                    let ukey ← unescapeKey key
                    let (obj1, rest2) ←
                      match curToken rest with
                      | some nt =>
                        if nt.indent > itemIndent then
                          match nt.type with
                          | .key => do
                            let (fs, r) ← parseObjectM fuel nt.indent rest []
                            pure ([(ukey, JsonValue.obj fs)], r)
                          | .arrayHeader => do
                            let (a, r) ← parseArrayM fuel rest
                            pure ([(ukey, JsonValue.arr a)], r)
                          | .listItem => do
                            let (a, r) ← parseListItemsM fuel nt.indent rest []
                            pure ([(ukey, JsonValue.arr a)], r)
                          | _ => pure ([(ukey, JsonValue.obj [])], rest)
                        else pure ([(ukey, JsonValue.obj [])], rest)
                      | none => pure ([(ukey, JsonValue.obj [])], rest)
                    parseListItemsM fuel baseIndent rest2 (acc ++ [.obj obj1])
            | none => do
              let arrayMatch ← parseArrayHeaderString content
              match arrayMatch with
              | some am => do
                let a ← parseInlineArray am
                parseListItemsM fuel baseIndent rest (acc ++ [.arr a])
              | none => do
                let p ← parsePrimitive content
                parseListItemsM fuel baseIndent rest (acc ++ [p])
      | _ => .ok (acc, tokens)
termination_by structural fuel => fuel

end

/-- Loop of the keyed-bindings branch of Parser.parse at root indent 0. -/
def parseTopLoopM : Nat → List Token → List (Str × JsonValue) →
    Except String (List (Str × JsonValue))
  | 0, _, _ => .error fuelMsg
  | fuel + 1, tokens, acc =>
    match tokens with
    | [] => .ok acc
    | token :: rest =>
      match token.type with
      | .eof => .ok acc
      | _ =>
        if token.indent ≠ 0 then .ok acc
        else
          match token.type with
          | .arrayHeader =>
            match token.arrayInfo with
            | some info =>
              match info.key with
              | some k => do
                let (a, rest2) ← parseArrayM fuel tokens
                parseTopLoopM fuel rest2 (objInsert acc k (.arr a))
              | none => parseTopLoopM fuel rest acc
            | none => parseTopLoopM fuel rest acc
          | .key =>
            (match curToken rest with
            | some colonTok =>
              match colonTok.type with
              | .colon => do
                let (bound, rest2) ←
                  parseValueAfterColonM fuel token (decide (token.indent = 0)) rest.tail
                let acc2 := match bound with
                  | some v => objInsert acc token.value v
                  | none => acc
                parseTopLoopM fuel rest2 acc2
              | _ => parseTopLoopM fuel rest acc
            | none => parseTopLoopM fuel rest acc)
          | _ => parseTopLoopM fuel rest acc

/-- Source Parser.parse. -/
def parseTop (fuel : Nat) (tokens : List Token) : Except String JsonValue :=
  match curToken tokens with
  | none => .ok .null
  | some t =>
    match t.type with
    | .eof => .ok .null
    | .value => parsePrimitive t.value
    | .arrayHeader =>
      if (t.arrayInfo.bind ArrayInfo.key).isNone then do
        let (a, _) ← parseArrayM fuel tokens
        .ok (.arr a)
      else do
        let fields ← parseTopLoopM fuel tokens []
        if fields.isEmpty then .ok .null else .ok (.obj fields)
    | _ => do
      let fields ← parseTopLoopM fuel tokens []
      if fields.isEmpty then .ok .null else .ok (.obj fields)

/-- Fuel that exceeds every recursion depth of the parser on the tokens. -/
def decodeFuel (tokens : List Token) : Nat := 8 * tokens.length + 64

/-- Source decode. -/
def decode (input : Str) (options : DecodeOptions) : Except String JsonValue :=
  if List.isEmpty input ∨ List.isEmpty (jsTrim input) then .ok .null
  else do
    let opts := resolveDecodeOptions options
    let tokens ← scan input opts
    parseTop (decodeFuel tokens) tokens

/-- Per-character escape view used to reason about escapeString. -/
def escapeAll : Str → Str
  | [] => []
  | c :: rest => escapeChar c ++ escapeAll rest

/-- A string with no newline character (Bool form). -/
def noNlB (l : Str) : Bool := l.all (fun c => c ≠ '\n')

/-- Content suitable for a line: nonempty, newline-free, and not ending in a
space. -/
def goodContent (l : Str) : Prop :=
  l ≠ [] ∧ noNlB l = true ∧ l.getLast? ≠ some ' '


/-! Claim theorems: C1, C2, C3, C6, C9 (concrete evaluations). -/

/-- C1, counterexample: the decoder option strict does NOT default to false.
On the input consisting of the line tab-key-colon-one, decode with no options
raises the strict-mode tab-indentation error, while decode with strict set to
false accepts the input; hence omitting the option does not behave like
strict false. -/
theorem claim1_counterexample :
    decode "\tkey: 1".data {} =
      .error "Indentation error at line 1: Tab character found in indentation. Use spaces only." ∧
    decode "\tkey: 1".data {strict := some false} =
      .ok (.obj [("key".data, .num ⟨1, 0⟩)]) :=
  ⟨rfl, rfl⟩

/-- C1, amended: strict defaults to TRUE.  For every input text (and any
indent option), calling decode with the strict option omitted behaves
identically to calling decode with strict true; in particular the
tab-indented input above is rejected by default. -/
theorem claim1_amended_strict_defaults_true :
    (∀ (input : Str) (ind : Option Nat),
      decode input {strict := none, indent := ind} =
        decode input {strict := some true, indent := ind}) ∧
    decode "\tkey: 1".data {} =
      .error "Indentation error at line 1: Tab character found in indentation. Use spaces only." :=
  ⟨fun _ _ => rfl, rfl⟩

/-- C2, counterexample: in lenient mode the inline-array count mismatch is
NOT suppressed: decoding a header declaring two elements over three delimited
elements errors out even with strict false. -/
theorem claim2_counterexample :
    decode "items[2]: a,b,c".data {strict := some false} =
      .error "Array length mismatch: expected 2 elements, but found 3" :=
  rfl

/-- C2, amended: an inline primitive array whose declared length differs from
the number of delimited elements is a fatal error in BOTH modes (the parser
performs the count check unconditionally; the strict flag only gates the
scanner-level checks). -/
theorem claim2_amended_count_mismatch_fatal_in_both_modes :
    (∀ b : Bool,
      decode "items[2]: a,b,c".data {strict := some b} =
        .error "Array length mismatch: expected 2 elements, but found 3") ∧
    decode "items[2]: a,b,c".data {} =
      .error "Array length mismatch: expected 2 elements, but found 3" :=
  ⟨fun b => by cases b <;> rfl, rfl⟩

/-- C3, code evaluated at the failing input: in lenient mode a tab in the
indentation contributes ZERO columns to the computed indent count (the claim
and the repository documentation say four) while setting the hadTabIndent
flag; in strict mode the tab is fatal, as the claim states. -/
theorem claim3_tab_contributes_zero_columns :
    getIndent {strict := false, indent := 2} "\tname: Alice".data 1 =
      .ok ⟨0, true⟩ ∧
    getIndent {strict := false, indent := 2} "\t\tname: Alice".data 1 =
      .ok ⟨0, true⟩ ∧
    getIndent {strict := true, indent := 2} "\tname: Alice".data 1 =
      .error "Indentation error at line 1: Tab character found in indentation. Use spaces only." :=
  ⟨rfl, rfl, rfl⟩

/-- C6: with default options, the two-record uniform array of objects
encodes to the tabular form with the field names in the first record's key
order and one delimiter-joined row per record, exactly as the claim states. -/
theorem claim6_tabular_encoding :
    encode (.obj [("items".data, .arr [
        .obj [("id".data, .num ⟨1, 0⟩), ("qty".data, .num ⟨5, 0⟩)],
        .obj [("id".data, .num ⟨2, 0⟩), ("qty".data, .num ⟨3, 0⟩)]])]) {} =
      "items[2]\x7bid,qty\x7d:\n  1,5\n  2,3".data :=
  rfl

/-- C9: a mixed array containing a non-primitive nested array drops that
element: the header declares the full count two, but only one list-item line
is emitted, because encodeListItemValue has no branch for an array element
that is not an array of primitives. -/
theorem claim9_list_item_dropped :
    encode (.obj [("items".data,
        .arr [.num ⟨1, 0⟩, .arr [.obj [("a".data, .num ⟨1, 0⟩)]]])]) {} =
      "items[2]:\n  - 1".data ∧
    (jsSplit '\n' (encode (.obj [("items".data,
        .arr [.num ⟨1, 0⟩, .arr [.obj [("a".data, .num ⟨1, 0⟩)]]])]) {})).countP
      (fun l => "- ".data.isPrefixOf (jsTrimLeft l)) = 1 ∧
    encodeListItemValueLines 8 (.arr [.obj [("a".data, .num ⟨1, 0⟩)]]) 1
      (resolveOptions {}) = [] :=
  ⟨rfl, rfl, rfl⟩

/-! Escape and unescape lemmas (claims C4, C8, C5). -/

theorem jsReplaceChar_append (t : Char) (r a b : Str) :
    jsReplaceChar t r (a ++ b) = jsReplaceChar t r a ++ jsReplaceChar t r b := by
  induction a with
  | nil => rfl
  | cons c rest ih =>
    simp only [List.cons_append, jsReplaceChar]
    by_cases h : c = t <;> simp [h, ih]

theorem escapeString_append (a b : Str) :
    escapeString (a ++ b) = escapeString a ++ escapeString b := by
  simp [escapeString, jsReplaceChar_append]

theorem escapeString_single (c : Char) : escapeString [c] = escapeChar c := by
  by_cases h1 : c = '\\'
  · subst h1; rfl
  by_cases h2 : c = '"'
  · subst h2; rfl
  by_cases h3 : c = '\n'
  · subst h3; rfl
  by_cases h4 : c = '\r'
  · subst h4; rfl
  by_cases h5 : c = '\t'
  · subst h5; rfl
  simp [escapeString, jsReplaceChar, escapeChar, h1, h2, h3, h4, h5]

theorem escapeString_eq_escapeAll (s : Str) : escapeString s = escapeAll s := by
  induction s with
  | nil => rfl
  | cons c rest ih =>
    have : (c :: rest : Str) = [c] ++ rest := rfl
    rw [this, escapeString_append, escapeString_single, ih]
    rfl

theorem length_escapeChar_pos (c : Char) : 1 ≤ (escapeChar c).length := by
  unfold escapeChar
  repeat' split
  all_goals simp

theorem length_le_length_escapeAll (s : Str) : s.length ≤ (escapeAll s).length := by
  induction s with
  | nil => simp [escapeAll]
  | cons c rest ih =>
    have h := length_escapeChar_pos c
    simp only [escapeAll, List.length_append, List.length_cons]
    omega

theorem unescape_escapeChar (c : Char) (rest : Str) :
    unescapeString (escapeChar c ++ rest) =
      (fun r => c :: r) <$> unescapeString rest := by
  by_cases h1 : c = '\\'
  · subst h1; rfl
  by_cases h2 : c = '"'
  · subst h2; rfl
  by_cases h3 : c = '\n'
  · subst h3; rfl
  by_cases h4 : c = '\r'
  · subst h4; rfl
  by_cases h5 : c = '\t'
  · subst h5; rfl
  have hc : escapeChar c = [c] := by simp [escapeChar, h1, h2, h3, h4, h5]
  rw [hc]
  show unescapeString (c :: rest) = _
  cases rest with
  | nil => simp [unescapeString, h1]
  | cons d tail => simp [unescapeString, h1]

theorem unescape_escapeAll (s : Str) : unescapeString (escapeAll s) = .ok s := by
  induction s with
  | nil => rfl
  | cons c rest ih =>
    rw [escapeAll, unescape_escapeChar, ih]
    rfl

theorem unescape_escapeString (s : Str) :
    unescapeString (escapeString s) = .ok s := by
  rw [escapeString_eq_escapeAll, unescape_escapeAll]

/-! Claims C4 and C8. -/

/-- C4, quoting law: encodePrimitive on a string delegates to
encodeStringLiteral with the active delimiter; the string is emitted bare
(unchanged) exactly when isSafeUnquoted with that delimiter holds, and
otherwise it is emitted double-quoted with the escape set applied. -/
theorem claim4_quoting_law :
    ∀ (s : Str) (d : Delim),
      encodePrimitive (.str s) d.char = encodeStringLiteral s d.char ∧
      (encodeStringLiteral s d.char = s ↔ isSafeUnquoted s d.char = true) ∧
      (isSafeUnquoted s d.char = false →
        encodeStringLiteral s d.char = '"' :: escapeString s ++ ['"']) := by
  intro s d
  refine ⟨rfl, ⟨?_, ?_⟩, ?_⟩
  · intro h
    by_cases hs : isSafeUnquoted s d.char = true
    · exact hs
    · exfalso
      have hq : encodeStringLiteral s d.char = '"' :: escapeString s ++ ['"'] := by
        simp [encodeStringLiteral, hs]
      rw [hq] at h
      have hlen := congrArg List.length h
      have hle := length_le_length_escapeAll s
      rw [escapeString_eq_escapeAll] at hlen
      simp only [List.length_cons, List.length_append, List.length_singleton] at hlen
      omega
  · intro h
    simp [encodeStringLiteral, h]
  · intro h
    simp [encodeStringLiteral, h]

/-- C4, witness: the comma-containing string is unsafe and quoted; the plain
word is safe and emitted bare. -/
theorem claim4_quoting_law_witness :
    isSafeUnquoted "hello, world".data ',' = false ∧
    encodeStringLiteral "hello, world".data ',' =
      '"' :: escapeString "hello, world".data ++ ['"'] ∧
    isSafeUnquoted "hello".data ',' = true ∧
    encodeStringLiteral "hello".data ',' = "hello".data :=
  ⟨by decide, (claim4_quoting_law "hello, world".data .comma).2.2 (by decide),
   by decide, ((claim4_quoting_law "hello".data .comma).2.1).2 (by decide)⟩

/-- C8, quoted-string escape round-trip: unescaping the escaped form of any
string yields the string back, and the concrete scenario encodes to the
quoted escaped line and decodes back to the original object. -/
theorem claim8_escape_roundtrip :
    (∀ s : Str, unescapeString (escapeString s) = .ok s) ∧
    encode (.obj [("m".data, .str "Line 1\nLine 2".data)]) {} =
      "m: \"Line 1\\nLine 2\"".data ∧
    decode "m: \"Line 1\\nLine 2\"".data {} =
      .ok (.obj [("m".data, .str "Line 1\nLine 2".data)]) :=
  ⟨unescape_escapeString, rfl, rfl⟩

/-! Character and trim lemmas (claims C7, C5). -/

theorem digit_ne_dot {c : Char} (h : c.isDigit = true) : c ≠ '.' := by
  intro e; subst e; exact absurd h (by decide)

theorem digit_ne_e {c : Char} (h : c.isDigit = true) : c ≠ 'e' := by
  intro e; subst e; exact absurd h (by decide)

theorem digit_ne_cap_e {c : Char} (h : c.isDigit = true) : c ≠ 'E' := by
  intro e; subst e; exact absurd h (by decide)

theorem digit_not_ws {c : Char} (h : c.isDigit = true) : jsWsChar c = false := by
  by_contra hw
  have hw2 : jsWsChar c = true := by
    cases hj : jsWsChar c
    · exact absurd hj hw
    · rfl
  simp only [jsWsChar, Bool.or_eq_true, decide_eq_true_eq] at hw2
  rcases hw2 with ((((e | e) | e) | e) | e) | e <;> subst e <;> exact absurd h (by decide)

theorem dropWhile_all_neg {p : Char → Bool} :
    ∀ {l : Str}, (∀ c ∈ l, p c = false) → l.dropWhile p = l := by
  intro l h
  induction l with
  | nil => rfl
  | cons c rest _ =>
    have hc := h c (List.mem_cons_self c rest)
    simp [List.dropWhile, hc]

theorem jsTrim_of_no_ws {s : Str} (h : ∀ c ∈ s, jsWsChar c = false) :
    jsTrim s = s := by
  unfold jsTrim jsTrimLeft jsTrimRight
  rw [dropWhile_all_neg (fun c hc => h c (List.mem_reverse.mp hc)),
    List.reverse_reverse, dropWhile_all_neg h]

/-! Claim C7: leading-zero integers stay strings, strict-shape tokens
become numbers, and the encoder quotes leading-zero strings. -/

theorem leadingZero_shape {s : Str} (h : matchLeadingZeroInt s = true) :
    ∃ d t, s = '0' :: d :: t ∧ d.isDigit = true ∧ (∀ c ∈ s, c.isDigit = true) := by
  unfold matchLeadingZeroInt at h
  split at h
  case _ rest =>
    rename_i heq
    cases rest with
    | nil => simp at h
    | cons d t =>
      simp only [Bool.and_eq_true, List.all_eq_true] at h
      refine ⟨d, t, rfl, h.2 d (List.mem_cons_self d t), ?_⟩
      intro c hc
      rcases List.mem_cons.mp hc with e | hc2
      · subst e; decide
      · exact h.2 c hc2
  case _ => exact absurd h (by simp)

theorem leadingZero_not_strict {s : Str} (h : matchLeadingZeroInt s = true) :
    strictNumberShape s = false := by
  obtain ⟨d, t, rfl, hd, _⟩ := leadingZero_shape h
  simp only [strictNumberShape]
  simp [digit_ne_dot hd, digit_ne_e hd, digit_ne_cap_e hd]

/-- C7, counterexample: a strict-shape token whose converted double
overflows (1e999) is NOT returned as a number; the Number.isFinite guard
fails and parsePrimitive falls through to the bare-string case. -/
theorem claim7_counterexample :
    strictNumberShape "1e999".data = true ∧
    jsFinite (strToNum "1e999".data) = false ∧
    parsePrimitive "1e999".data = .ok (.str "1e999".data) :=
  ⟨by decide, by decide, rfl⟩

/-- C7, amended: the decoder keeps leading-zero multi-digit integers as
strings while strict-shape numeric tokens WHOSE CONVERTED DOUBLE IS FINITE
become numbers (an overflowing token such as 1e999 stays a string), and the
encoder treats leading-zero strings as numeric-like, hence quotes them. -/
theorem claim7_leading_zero_stays_string :
    ∀ s : Str,
      (matchLeadingZeroInt s = true →
        parsePrimitive s = .ok (.str s) ∧
        isNumericLike s = true ∧
        ∀ d : Delim, isSafeUnquoted s d.char = false) ∧
      (strictNumberShape s = true → jsFinite (strToNum s) = true → jsTrim s = s →
        parsePrimitive s = .ok (.num (strToNum s))) := by
  intro s
  constructor
  · intro h
    obtain ⟨d, t, hs, hd, hall⟩ := leadingZero_shape h
    have htrim : jsTrim s = s :=
      jsTrim_of_no_ws (fun c hc => digit_not_ws (hall c hc))
    have hnull : s ≠ "null".data := by
      intro e; rw [e] at h; exact absurd h (by decide)
    have htrue : s ≠ "true".data := by
      intro e; rw [e] at h; exact absurd h (by decide)
    have hfalse : s ≠ "false".data := by
      intro e; rw [e] at h; exact absurd h (by decide)
    have hstrict := leadingZero_not_strict h
    have hnum : isNumericLike s = true := by
      simp [isNumericLike, h]
    have hhead : s.head? = some '0' := by rw [hs]; rfl
    refine ⟨?_, hnum, ?_⟩
    · simp only [parsePrimitive, htrim, hnull, htrue, hfalse, hstrict,
        Bool.false_and, if_false, if_neg, hhead]
      simp
    · intro dl
      have hne : s.isEmpty = false := by rw [hs]; rfl
      simp [isSafeUnquoted, hne, htrim, hnum]
  · intro hshape hfin htrim
    have hnull : s ≠ "null".data := by
      intro e; rw [e] at hshape; exact absurd hshape (by decide)
    have htrue : s ≠ "true".data := by
      intro e; rw [e] at hshape; exact absurd hshape (by decide)
    have hfalse : s ≠ "false".data := by
      intro e; rw [e] at hshape; exact absurd hshape (by decide)
    simp [parsePrimitive, htrim, hnull, htrue, hfalse, hshape, hfin]

/-- C7, witness: 0123 decodes to the string 0123 and is numeric-like hence
quoted by the encoder; the finite token 123 decodes to the number 123. -/
theorem claim7_witness :
    parsePrimitive "0123".data = .ok (.str "0123".data) ∧
    isNumericLike "0123".data = true ∧
    isSafeUnquoted "0123".data ',' = false ∧
    parsePrimitive "123".data = .ok (.num (strToNum "123".data)) :=
  have h1 := (claim7_leading_zero_stays_string "0123".data).1 (by decide)
  have h2 := (claim7_leading_zero_stays_string "123".data).2
    (by decide) (by decide) (by decide)
  ⟨h1.1, h1.2.1, h1.2.2 .comma, h2⟩

/-! Claim C10: decode never returns an empty object at top level. -/

theorem parsePrimitive_ne_ok_obj (s : Str) (l : List (Str × JsonValue)) :
    parsePrimitive s ≠ .ok (.obj l) := by
  intro h
  simp only [parsePrimitive] at h
  split at h
  · exact JsonValue.noConfusion (Except.ok.inj h)
  · split at h
    · exact JsonValue.noConfusion (Except.ok.inj h)
    · split at h
      · exact JsonValue.noConfusion (Except.ok.inj h)
      · split at h
        · exact JsonValue.noConfusion (Except.ok.inj h)
        · split at h
          · split at h
            · exact Except.noConfusion h
            · cases hu : unescapeString (((jsTrim s).drop 1).dropLast) with
              | error e => rw [hu] at h; exact Except.noConfusion h
              | ok r =>
                rw [hu] at h
                exact JsonValue.noConfusion (Except.ok.inj h)
          · exact JsonValue.noConfusion (Except.ok.inj h)

theorem parseTop_ne_ok_empty_obj (fuel : Nat) (tokens : List Token) :
    parseTop fuel tokens ≠ .ok (.obj []) := by
  intro h
  unfold parseTop at h
  split at h
  · exact JsonValue.noConfusion (Except.ok.inj h)
  · split at h
    · exact JsonValue.noConfusion (Except.ok.inj h)
    · exact parsePrimitive_ne_ok_obj _ [] h
    · split at h
      · cases hA : parseArrayM fuel tokens with
        | error e => rw [hA] at h; exact Except.noConfusion h
        | ok p =>
          obtain ⟨a, r⟩ := p
          rw [hA] at h
          exact JsonValue.noConfusion (Except.ok.inj h)
      · cases hL : parseTopLoopM fuel tokens [] with
        | error e => rw [hL] at h; exact Except.noConfusion h
        | ok fields =>
          rw [hL] at h
          have h2 : (if fields.isEmpty = true then Except.ok JsonValue.null
              else Except.ok (JsonValue.obj fields)) =
              Except.ok (JsonValue.obj ([] : List (Str × JsonValue))) := h
          by_cases he : fields.isEmpty
          · rw [if_pos he] at h2; exact JsonValue.noConfusion (Except.ok.inj h2)
          · rw [if_neg he] at h2
            have hfe := JsonValue.obj.inj (Except.ok.inj h2)
            rw [hfe] at he
            exact he rfl
    all_goals {
      cases hL : parseTopLoopM fuel tokens [] with
      | error e => rw [hL] at h; exact Except.noConfusion h
      | ok fields =>
        rw [hL] at h
        have h2 : (if fields.isEmpty = true then Except.ok JsonValue.null
            else Except.ok (JsonValue.obj fields)) =
            Except.ok (JsonValue.obj ([] : List (Str × JsonValue))) := h
        by_cases he : fields.isEmpty
        · rw [if_pos he] at h2; exact JsonValue.noConfusion (Except.ok.inj h2)
        · rw [if_neg he] at h2
          have hfe := JsonValue.obj.inj (Except.ok.inj h2)
          rw [hfe] at he
          exact he rfl
    }

/-- C10: for every input and options, decode never yields the empty object
at top level; the empty root object encodes to the empty string, and decoding
it yields Null, so decode after encode of the empty object is Null. -/
theorem claim10_decode_never_empty_object :
    (∀ (input : Str) (o : DecodeOptions) (v : JsonValue),
      decode input o = .ok v → v ≠ .obj []) ∧
    encode (.obj []) {} = [] ∧
    decode (encode (.obj []) {}) {} = .ok .null := by
  refine ⟨?_, rfl, rfl⟩
  intro input o v h hv
  subst hv
  unfold decode at h
  split at h
  · exact JsonValue.noConfusion (Except.ok.inj h)
  · replace h : (do
        let tokens ← scan input (resolveDecodeOptions o)
        parseTop (decodeFuel tokens) tokens) =
        Except.ok (JsonValue.obj ([] : List (Str × JsonValue))) := h
    cases hscan : scan input (resolveDecodeOptions o) with
    | error e =>
      rw [hscan] at h
      exact Except.noConfusion h
    | ok tokens =>
      rw [hscan] at h
      exact parseTop_ne_ok_empty_obj (decodeFuel tokens) tokens h

/-- C10, witness: a one-binding input decodes to a nonempty object, which the
theorem certifies is not the empty object. -/
theorem claim10_witness :
    decode "a: 1".data {} = .ok (.obj [("a".data, .num ⟨1, 0⟩)]) ∧
    (JsonValue.obj [("a".data, .num ⟨1, 0⟩)]) ≠ .obj [] :=
  ⟨rfl, claim10_decode_never_empty_object.1 "a: 1".data {}
    (.obj [("a".data, .num ⟨1, 0⟩)]) rfl⟩

/-! Line-content lemmas for claim C5. -/

theorem length_dropWhile_le (p : Char → Bool) (l : Str) :
    (l.dropWhile p).length ≤ l.length := by
  induction l with
  | nil => simp
  | cons c rest ih =>
    rw [List.dropWhile_cons]
    by_cases h : p c
    · simp only [h, if_true]
      exact Nat.le_succ_of_le ih
    · simp [h]

theorem goodContent_append {a b : Str} (ha : noNlB a = true) (hb : goodContent b) :
    goodContent (a ++ b) := by
  obtain ⟨hne, hnl, hlast⟩ := hb
  refine ⟨by simp [hne], ?_, ?_⟩
  · simp only [noNlB, List.all_eq_true] at ha hnl ⊢
    intro x hx
    rcases List.mem_append.mp hx with h | h
    · exact ha x h
    · exact hnl x h
  · rw [List.getLast?_append_of_ne_nil _ hne]
    exact hlast

theorem goodContent_singleton {c : Char} (h1 : c ≠ '\n') (h2 : c ≠ ' ') :
    goodContent [c] := by
  refine ⟨by simp, by simp [noNlB, h1], by simp [h2]⟩

theorem noNlB_of_goodContent {l : Str} (h : goodContent l) : noNlB l = true := h.2.1

theorem getLast?_ne_of_noNl {l : Str} (h : noNlB l = true) :
    l.getLast? ≠ some '\n' := by
  intro he
  have hm : '\n' ∈ l := List.mem_of_mem_getLast? (by rw [he]; rfl)
  simp only [noNlB, List.all_eq_true] at h
  have := h '\n' hm
  simp at this

theorem goodContent_colon_end {a : Str} (ha : noNlB a = true) :
    goodContent (a ++ [':']) :=
  goodContent_append ha (goodContent_singleton (by decide) (by decide))

theorem joinSep_ne_nil {sep : Str} {ps : List Str} (hne : ps ≠ [])
    (h : ∀ p ∈ ps, p ≠ []) : joinSep sep ps ≠ [] := by
  cases ps with
  | nil => exact absurd rfl hne
  | cons a rest =>
    cases rest with
    | nil => exact h a (by simp)
    | cons b t =>
      have : joinSep sep (a :: b :: t) = a ++ sep ++ joinSep sep (b :: t) := rfl
      rw [this]
      have ha := h a (by simp)
      simp [ha]

theorem noNlB_joinSep {sep : Str} {ps : List Str} (hsep : noNlB sep = true)
    (h : ∀ p ∈ ps, noNlB p = true) : noNlB (joinSep sep ps) = true := by
  induction ps with
  | nil => rfl
  | cons a rest ih =>
    cases rest with
    | nil => exact h a (by simp)
    | cons b t =>
      have he : joinSep sep (a :: b :: t) = a ++ sep ++ joinSep sep (b :: t) := rfl
      rw [he]
      have h1 := h a (by simp)
      have h2 := ih (fun p hp => h p (by simp [hp]))
      simp only [noNlB, List.all_eq_true] at h1 h2 hsep ⊢
      intro x hx
      rcases List.mem_append.mp hx with hx2 | hx2
      · rcases List.mem_append.mp hx2 with hx3 | hx3
        · exact h1 x hx3
        · exact hsep x hx3
      · exact h2 x hx2

theorem getLast?_joinSep {sep : Str} {ps : List Str} (hne : ps ≠ [])
    (h : ∀ p ∈ ps, goodContent p) :
    (joinSep sep ps).getLast? = (ps.getLast hne).getLast? := by
  induction ps with
  | nil => exact absurd rfl hne
  | cons a rest ih =>
    cases rest with
    | nil => rfl
    | cons b t =>
      have he : joinSep sep (a :: b :: t) = a ++ (sep ++ joinSep sep (b :: t)) := by
        simp [joinSep]
      rw [he]
      have hrec : joinSep sep (b :: t) ≠ [] :=
        joinSep_ne_nil (by simp) (fun p hp => (h p (by simp [hp])).1)
      rw [List.getLast?_append_of_ne_nil _ (by simp [hrec]),
        List.getLast?_append_of_ne_nil _ hrec,
        ih (by simp) (fun p hp => h p (by simp [hp]))]
      simp [List.getLast_cons]

theorem goodContent_joinSep {sep : Str} {ps : List Str} (hne : ps ≠ [])
    (hsep : noNlB sep = true) (h : ∀ p ∈ ps, goodContent p) :
    goodContent (joinSep sep ps) := by
  refine ⟨joinSep_ne_nil hne (fun p hp => (h p hp).1), ?_, ?_⟩
  · exact noNlB_joinSep hsep (fun p hp => (h p hp).2.1)
  · rw [getLast?_joinSep hne h]
    exact (h _ (List.getLast_mem hne)).2.2

theorem noNlB_replicate_space (n : Nat) : noNlB (List.replicate n ' ') = true := by
  simp [noNlB, List.all_eq_true]

theorem goodContent_pushLine {opts : ResolvedOptions} {depth : Nat} {content : Str}
    (h : goodContent content) : goodContent (pushLine opts depth content) :=
  goodContent_append (noNlB_replicate_space _) h

theorem goodContent_pushListItem {opts : ResolvedOptions} {depth : Nat} {content : Str}
    (h : goodContent content) : goodContent (pushListItem opts depth content) :=
  goodContent_pushLine (goodContent_append (a := ['-', ' ']) (by decide) h)

/-! Piece lemmas: digits, numbers, literals, quoted forms, keys, headers. -/

theorem isDigit_ofNat_48_add {k : Nat} (h : k < 10) :
    (Char.ofNat (48 + k)).isDigit = true := by
  interval_cases k <;> decide

theorem digit_ne_nl {c : Char} (h : c.isDigit = true) : c ≠ '\n' := by
  intro e; subst e; exact absurd h (by decide)

theorem digit_ne_space {c : Char} (h : c.isDigit = true) : c ≠ ' ' := by
  intro e; subst e; exact absurd h (by decide)

theorem mem_natDigitsAux :
    ∀ (fuel n : Nat) (acc : Str) (c : Char), c ∈ natDigitsAux fuel n acc →
      c.isDigit = true ∨ c ∈ acc := by
  intro fuel
  induction fuel with
  | zero => intro n acc c h; exact Or.inr h
  | succ f ih =>
    intro n acc c h
    simp only [natDigitsAux] at h
    split at h
    · rcases List.mem_cons.mp h with e | hm
      · subst e
        exact Or.inl (isDigit_ofNat_48_add (by omega))
      · exact Or.inr hm
    · rcases ih _ _ _ h with hd | hm
      · exact Or.inl hd
      · rcases List.mem_cons.mp hm with e | hm2
        · subst e
          exact Or.inl (isDigit_ofNat_48_add (Nat.mod_lt _ (by omega)))
        · exact Or.inr hm2

theorem natToStr_digits {n : Nat} : ∀ c ∈ natToStr n, c.isDigit = true := by
  intro c h
  rcases mem_natDigitsAux _ _ _ _ h with hd | hm
  · exact hd
  · simp at hm

theorem natDigitsAux_acc_ne_nil :
    ∀ (fuel n : Nat) (acc : Str), acc ≠ [] → natDigitsAux fuel n acc ≠ [] := by
  intro fuel
  induction fuel with
  | zero => intro n acc h; exact h
  | succ f ih =>
    intro n acc h
    simp only [natDigitsAux]
    split
    · simp
    · exact ih _ _ (by simp)

theorem natToStr_ne_nil (n : Nat) : natToStr n ≠ [] := by
  simp only [natToStr, natDigitsAux]
  split
  · simp
  · exact natDigitsAux_acc_ne_nil _ _ _ (by simp)

theorem goodContent_of_all_digits {l : Str} (hne : l ≠ [])
    (h : ∀ c ∈ l, c.isDigit = true) : goodContent l := by
  refine ⟨hne, ?_, ?_⟩
  · simp only [noNlB, List.all_eq_true]
    intro c hc
    simp [digit_ne_nl (h c hc)]
  · intro he
    have hm : (' ' : Char) ∈ l := List.mem_of_mem_getLast? (by rw [he]; rfl)
    exact absurd (h ' ' hm) (by decide)

theorem goodContent_natToStr (n : Nat) : goodContent (natToStr n) :=
  goodContent_of_all_digits (natToStr_ne_nil n) natToStr_digits

theorem goodContent_intToStr (i : Int) : goodContent (intToStr i) := by
  unfold intToStr
  split
  · exact goodContent_append (a := ['-']) (by decide) (goodContent_natToStr _)
  · exact goodContent_natToStr _

theorem noNlB_intToStr (i : Int) : noNlB (intToStr i) = true :=
  (goodContent_intToStr i).2.1

theorem goodContent_numToStr (d : Dec10) : goodContent (numToStr d) := by
  unfold numToStr
  split
  · exact goodContent_intToStr _
  · exact goodContent_append (noNlB_intToStr _)
      (goodContent_append (a := ['e']) (by decide) (goodContent_intToStr _))

theorem noNlB_escapeChar (c : Char) : noNlB (escapeChar c) = true := by
  by_cases h1 : c = '\\'
  · subst h1; decide
  by_cases h2 : c = '"'
  · subst h2; decide
  by_cases h3 : c = '\n'
  · subst h3; decide
  by_cases h4 : c = '\r'
  · subst h4; decide
  by_cases h5 : c = '\t'
  · subst h5; decide
  have : escapeChar c = [c] := by simp [escapeChar, h1, h2, h3, h4, h5]
  rw [this]
  simp [noNlB, h3]

theorem noNlB_escapeString (s : Str) : noNlB (escapeString s) = true := by
  rw [escapeString_eq_escapeAll]
  induction s with
  | nil => rfl
  | cons c rest ih =>
    have h1 := noNlB_escapeChar c
    simp only [escapeAll, noNlB, List.all_eq_true] at h1 ih ⊢
    intro x hx
    rcases List.mem_append.mp hx with hm | hm
    · exact h1 x hm
    · exact ih x hm

theorem goodContent_quoted (s : Str) :
    goodContent ('"' :: escapeString s ++ ['"']) := by
  have he : ('"' :: escapeString s ++ ['"'] : Str) =
      ('"' :: escapeString s) ++ ['"'] := by simp
  rw [he]
  refine goodContent_append ?_ (goodContent_singleton (by decide) (by decide))
  have h1 := noNlB_escapeString s
  simp only [noNlB, List.all_eq_true, List.mem_cons] at h1 ⊢
  intro c hc
  rcases hc with e | hm
  · subst e; decide
  · exact h1 c hm

theorem isSafeUnquoted_spec {s : Str} {d : Char} (h : isSafeUnquoted s d = true) :
    s ≠ [] ∧ s = jsTrim s ∧ noNlB s = true := by
  unfold isSafeUnquoted at h
  split at h
  · exact absurd h (by simp)
  split at h
  · exact absurd h (by simp)
  split at h
  · exact absurd h (by simp)
  split at h
  · exact absurd h (by simp)
  split at h
  · exact absurd h (by simp)
  split at h
  · exact absurd h (by simp)
  split at h
  · exact absurd h (by simp)
  split at h
  · exact absurd h (by simp)
  split at h
  · exact absurd h (by simp)
  rename_i h1 h2 h3 h4 h5 h6 h7 h8 h9
  refine ⟨?_, ?_, ?_⟩
  · intro he
    exact h1 (by rw [he]; rfl)
  · by_contra hne
    exact h2 hne
  · simp only [List.any_eq_true, not_exists, not_and] at h7
    simp only [noNlB, List.all_eq_true]
    intro c hc
    have := h7 c hc
    simp only [Bool.or_eq_true, decide_eq_true_eq] at this
    simp only [decide_eq_true_eq]
    intro e
    exact this (Or.inl (Or.inl e))

theorem eq_trim_last_ne_space {s : Str} (h : s = jsTrim s) :
    s.getLast? ≠ some ' ' := by
  intro he
  have hrev : s.reverse.head? = some ' ' := by
    rw [List.head?_reverse]; exact he
  obtain ⟨t, ht⟩ : ∃ t, s.reverse = ' ' :: t := by
    cases hr : s.reverse with
    | nil => rw [hr] at hrev; exact absurd hrev (by simp)
    | cons c u =>
      rw [hr] at hrev
      have hc : c = ' ' := by simpa using hrev
      exact ⟨u, by rw [hc]⟩
  have h1 : (jsTrimRight s).length ≤ t.length := by
    unfold jsTrimRight
    rw [ht]
    have hd : List.dropWhile jsWsChar (' ' :: t) = List.dropWhile jsWsChar t := by
      rw [List.dropWhile_cons]
      simp [jsWsChar]
    rw [hd, List.length_reverse]
    exact length_dropWhile_le _ _
  have h2 : (jsTrim s).length ≤ (jsTrimRight s).length := by
    unfold jsTrim jsTrimLeft
    exact length_dropWhile_le _ _
  have h3 : s.length = t.length + 1 := by
    have := congrArg List.length ht
    simpa using this
  have h4 := congrArg List.length h
  omega

theorem goodContent_encodeStringLiteral (s : Str) (d : Char) :
    goodContent (encodeStringLiteral s d) := by
  unfold encodeStringLiteral
  split
  · rename_i hsafe
    obtain ⟨hne, htrim, hnl⟩ := isSafeUnquoted_spec hsafe
    exact ⟨hne, hnl, eq_trim_last_ne_space htrim⟩
  · exact goodContent_quoted s

theorem alpha_underscore_ne {c : Char} (h : (c.isAlpha || c = '_') = true) :
    c ≠ '\n' ∧ c ≠ ' ' := by
  constructor <;> intro e <;> subst e <;> exact absurd h (by decide)

theorem alnum_dot_ne {c : Char} (h : (c.isAlphanum || c = '_' || c = '.') = true) :
    c ≠ '\n' ∧ c ≠ ' ' := by
  constructor <;> intro e <;> subst e <;> exact absurd h (by decide)

theorem goodContent_encodeKey (k : Str) : goodContent (encodeKey k) := by
  unfold encodeKey isValidUnquotedKey
  split
  · rename_i hm
    unfold matchUnquotedKey at hm
    cases k with
    | nil => exact absurd hm (by simp)
    | cons c rest =>
      simp only [Bool.and_eq_true, List.all_eq_true] at hm
      have hmem : ∀ x ∈ (c :: rest : Str), x ≠ '\n' ∧ x ≠ ' ' := by
        intro x hx
        rcases List.mem_cons.mp hx with e | hr
        · subst e; exact alpha_underscore_ne hm.1
        · exact alnum_dot_ne (hm.2 x hr)
      refine ⟨by simp, ?_, ?_⟩
      · simp only [noNlB, List.all_eq_true]
        intro x hx
        simp [(hmem x hx).1]
      · intro he
        have hsp : (' ' : Char) ∈ (c :: rest : Str) :=
          List.mem_of_mem_getLast? (by rw [he]; rfl)
        exact (hmem ' ' hsp).2 rfl
  · exact goodContent_quoted k

theorem goodContent_encodePrimitive {v : JsonValue} (h : isJsonPrimitive v = true)
    (d : Char) : goodContent (encodePrimitive v d) := by
  cases v with
  | null =>
    exact show goodContent ("null".data) from ⟨by decide, by decide, by decide⟩
  | bool b =>
    cases b
    · exact show goodContent ("false".data) from ⟨by decide, by decide, by decide⟩
    · exact show goodContent ("true".data) from ⟨by decide, by decide, by decide⟩
  | num q => exact goodContent_numToStr q
  | str s => exact goodContent_encodeStringLiteral s d
  | arr l => exact absurd h (by simp [isJsonPrimitive])
  | obj l => exact absurd h (by simp [isJsonPrimitive])

theorem delim_char_ne_nl (d : Delim) : noNlB [d.char] = true := by
  cases d <;> decide

theorem noNlB_joinSep_keys (d : Delim) (fs : List Str) :
    noNlB (joinSep [d.char] (fs.map encodeKey)) = true := by
  refine noNlB_joinSep (delim_char_ne_nl d) ?_
  intro p hp
  obtain ⟨k, _, rfl⟩ := List.mem_map.mp hp
  exact (goodContent_encodeKey k).2.1

theorem goodContent_formatHeader (len : Nat) (key : Option Str)
    (fields : Option (List Str)) (d : Delim) (marker : Bool) :
    goodContent (formatHeader len key fields d marker) := by
  unfold formatHeader
  apply goodContent_colon_end
  simp only [noNlB, List.all_eq_true]
  intro x hx
  simp only [decide_eq_true_eq]
  rcases List.mem_append.mp hx with hm | hm
  · rcases List.mem_append.mp hm with hm | hm
    · rcases List.mem_append.mp hm with hm | hm
      · rcases List.mem_append.mp hm with hm | hm
        · rcases List.mem_append.mp hm with hm | hm
          · cases key with
            | some k =>
              have hk := (goodContent_encodeKey k).2.1
              simp only [noNlB, List.all_eq_true, decide_eq_true_eq] at hk
              exact hk x hm
            | none => simp at hm
          · rcases List.mem_cons.mp hm with e | hm2
            · subst e; decide
            · split at hm2
              · have he : x = '#' := by simpa using hm2
                subst he; decide
              · simp at hm2
        · exact digit_ne_nl (natToStr_digits x hm)
      · split at hm
        · have hxd : x = d.char := by simpa using hm
          subst hxd
          cases d <;> decide
        · simp at hm
    · have he : x = ']' := by simpa using hm
      subst he; decide
  · cases fields with
    | some fs =>
      rcases List.mem_cons.mp hm with e | hm2
      · subst e; decide
      · rcases List.mem_append.mp hm2 with hm3 | hm3
        · have hj := noNlB_joinSep_keys d fs
          simp only [noNlB, List.all_eq_true, decide_eq_true_eq] at hj
          exact hj x hm3
        · have he : x = '\x7d' := by simpa using hm3
          subst he; decide
    | none => simp at hm

/-! Composite encoder-line lemmas. -/

theorem goodContent_cons_of {c : Char} {l : Str} (hc : c ≠ '\n')
    (h : goodContent l) : goodContent (c :: l) := by
  obtain ⟨hne, hnl, hlast⟩ := h
  refine ⟨by simp, ?_, ?_⟩
  · simp only [noNlB, List.all_eq_true, List.mem_cons] at hnl ⊢
    intro x hx
    rcases hx with e | hm
    · subst e; simp [hc]
    · exact hnl x hm
  · rw [show (c :: l : Str) = [c] ++ l from rfl,
      List.getLast?_append_of_ne_nil _ hne]
    exact hlast

theorem goodContent_encodeAndJoin {vs : List JsonValue}
    (hp : isArrayOfPrimitives vs = true) (hne : vs ≠ []) (d : Delim) :
    goodContent (encodeAndJoinPrimitives vs d.char) := by
  unfold encodeAndJoinPrimitives
  refine goodContent_joinSep (by simp [hne]) (delim_char_ne_nl d) ?_
  intro p hp2
  obtain ⟨v, hv, rfl⟩ := List.mem_map.mp hp2
  simp only [isArrayOfPrimitives, List.all_eq_true] at hp
  exact goodContent_encodePrimitive (hp v hv) d.char

theorem goodContent_inline {vs : List JsonValue} (hp : isArrayOfPrimitives vs = true)
    (key : Option Str) (d : Delim) (marker : Bool) :
    goodContent (encodeInlineArrayLine vs key d marker) := by
  unfold encodeInlineArrayLine
  split
  · exact goodContent_formatHeader _ _ _ _ _
  · rename_i hvne
    refine goodContent_append (goodContent_formatHeader vs.length key none d marker).2.1
      (goodContent_cons_of (by decide) ?_)
    exact goodContent_encodeAndJoin hp (by simpa using hvne) d

theorem extractTabularHeader_spec {rows : List JsonValue} {header : List Str}
    (h : extractTabularHeader rows = some header) :
    header ≠ [] ∧ isTabularArray rows header = true := by
  unfold extractTabularHeader at h
  cases rows with
  | nil => exact Option.noConfusion h
  | cons firstRow rest =>
    cases firstRow with
    | obj ffields =>
      simp only at h
      split at h
      · exact Option.noConfusion h
      · split at h
        · rename_i hemp htab
          have he := Option.some.inj h
          subst he
          exact ⟨by simpa using hemp, htab⟩
        · exact Option.noConfusion h
    | null => exact Option.noConfusion h
    | bool b => exact Option.noConfusion h
    | num q => exact Option.noConfusion h
    | str s => exact Option.noConfusion h
    | arr l => exact Option.noConfusion h

theorem goodContent_writeTabularRows {rows : List JsonValue} {header : List Str}
    (ht : isTabularArray rows header = true) (hne : header ≠ [])
    (depth : Nat) (opts : ResolvedOptions) :
    ∀ l ∈ writeTabularRows rows header depth opts, goodContent l := by
  intro l hl
  unfold writeTabularRows at hl
  obtain ⟨row, hrow, rfl⟩ := List.mem_map.mp hl
  apply goodContent_pushLine
  simp only [isTabularArray, List.all_eq_true] at ht
  have hrowt := ht row hrow
  cases row with
  | obj f =>
    simp only [Bool.and_eq_true, List.all_eq_true] at hrowt
    refine goodContent_encodeAndJoin ?_ (by simp [hne]) opts.delimiter
    simp only [isArrayOfPrimitives, List.all_eq_true]
    intro v hv
    obtain ⟨k, hk, rfl⟩ := List.mem_map.mp hv
    have := hrowt.2 k hk
    cases hlk : lookupField f k with
    | some w => rw [hlk] at this; simpa [hlk] using this
    | none => rw [hlk] at this; exact absurd this (by simp)
  | null => exact absurd hrowt (by simp)
  | bool b => exact absurd hrowt (by simp)
  | num q => exact absurd hrowt (by simp)
  | str s2 => exact absurd hrowt (by simp)
  | arr l2 => exact absurd hrowt (by simp)

theorem goodContent_arraysAsListItems (key : Option Str) (values : List JsonValue)
    (depth : Nat) (opts : ResolvedOptions) :
    ∀ l ∈ encodeArrayOfArraysAsListItems key values depth opts, goodContent l := by
  intro l hl
  unfold encodeArrayOfArraysAsListItems at hl
  rcases List.mem_cons.mp hl with e | hm
  · subst e
    exact goodContent_pushLine (goodContent_formatHeader _ _ _ _ _)
  · obtain ⟨piece, hpiece, hlp⟩ := List.mem_flatten.mp hm
    obtain ⟨v, _, rfl⟩ := List.mem_map.mp hpiece
    cases v with
    | arr inner =>
      simp only at hlp
      split at hlp
      · rename_i hprim
        have he : l = pushListItem opts (depth + 1)
            (encodeInlineArrayLine inner none opts.delimiter opts.lengthMarker) := by
          simpa using hlp
        subst he
        exact goodContent_pushListItem (goodContent_inline hprim none _ _)
      · simp at hlp
    | null => simp at hlp
    | bool b => simp at hlp
    | num q => simp at hlp
    | str s2 => simp at hlp
    | obj f => simp at hlp

theorem goodContent_tabular {key : Option Str} {rows : List JsonValue}
    {header : List Str} (h : extractTabularHeader rows = some header)
    (depth : Nat) (opts : ResolvedOptions) :
    ∀ l ∈ encodeArrayOfObjectsAsTabular key rows header depth opts, goodContent l := by
  obtain ⟨hne, ht⟩ := extractTabularHeader_spec h
  intro l hl
  unfold encodeArrayOfObjectsAsTabular at hl
  rcases List.mem_cons.mp hl with e | hm
  · subst e
    exact goodContent_pushLine (goodContent_formatHeader _ _ _ _ _)
  · exact goodContent_writeTabularRows ht hne _ _ l hm

/-! Main induction: every line the encoder emits is newline-free, nonempty
and does not end in a space. -/

theorem goodContent_kv_line {v : JsonValue} (hp : isJsonPrimitive v = true)
    (k : Str) (d : Char) :
    goodContent (encodeKey k ++ ':' :: ' ' :: encodePrimitive v d) :=
  goodContent_append (goodContent_encodeKey k).2.1
    (goodContent_cons_of (by decide)
      (goodContent_cons_of (by decide) (goodContent_encodePrimitive hp d)))

theorem goodContent_bracket_line (k : Str) (n : Nat) :
    goodContent (encodeKey k ++ '[' :: natToStr n ++ "]:".data) := by
  have hnl : noNlB (encodeKey k ++ '[' :: natToStr n) = true := by
    simp only [noNlB, List.all_eq_true]
    intro x hx
    rcases List.mem_append.mp hx with hm | hm
    · have hk := (goodContent_encodeKey k).2.1
      simp only [noNlB, List.all_eq_true] at hk
      exact hk x hm
    · rcases List.mem_cons.mp hm with e | hm2
      · subst e; decide
      · simp [digit_ne_nl (natToStr_digits x hm2)]
  have hassoc : (encodeKey k ++ '[' :: natToStr n ++ "]:".data : Str) =
      (encodeKey k ++ '[' :: natToStr n) ++ "]:".data := by
    simp
  rw [hassoc]
  exact goodContent_append hnl ⟨by decide, by decide, by decide⟩

theorem encoderLines_good : ∀ fuel : Nat,
    (∀ fields depth opts, ∀ l ∈ encodeObjectLines fuel fields depth opts,
      goodContent l) ∧
    (∀ key v depth opts, ∀ l ∈ encodeKeyValuePairLines fuel key v depth opts,
      goodContent l) ∧
    (∀ key items depth opts, ∀ l ∈ encodeArrayLines fuel key items depth opts,
      goodContent l) ∧
    (∀ key items depth opts, ∀ l ∈ encodeMixedArrayLines fuel key items depth opts,
      goodContent l) ∧
    (∀ items depth opts, ∀ l ∈ encodeListItemsLines fuel items depth opts,
      goodContent l) ∧
    (∀ v depth opts, ∀ l ∈ encodeListItemValueLines fuel v depth opts,
      goodContent l) ∧
    (∀ fields depth opts, ∀ l ∈ encodeObjectAsListItemLines fuel fields depth opts,
      goodContent l) ∧
    (∀ items depth opts, ∀ l ∈ encodeNonUniformObjectItems fuel items depth opts,
      goodContent l) := by
  intro fuel
  induction fuel with
  | zero =>
    refine ⟨?_, ?_, ?_, ?_, ?_, ?_, ?_, ?_⟩ <;>
      · intros
        rename_i hl
        exact absurd hl (List.not_mem_nil _)
  | succ fuel ih =>
    obtain ⟨ihObj, ihKV, ihArr, ihMixed, ihItems, ihLIV, ihOALI, ihNU⟩ := ih
    refine ⟨?_, ?_, ?_, ?_, ?_, ?_, ?_, ?_⟩
    · -- encodeObjectLines
      intro fields depth opts l hl
      cases fields with
      | nil => exact absurd hl (List.not_mem_nil _)
      | cons p rest =>
        obtain ⟨k, v⟩ := p
        simp only [encodeObjectLines] at hl
        rcases List.mem_append.mp hl with hm | hm
        · exact ihKV _ _ _ _ l hm
        · exact ihObj _ _ _ l hm
    · -- encodeKeyValuePairLines
      intro key v depth opts l hl
      simp only [encodeKeyValuePairLines] at hl
      split at hl
      · rename_i hp
        have he : l = pushLine opts depth
            (encodeKey key ++ ':' :: ' ' :: encodePrimitive v opts.delimiter.char) := by
          simpa using hl
        subst he
        exact goodContent_pushLine (goodContent_kv_line hp key _)
      · split at hl
        · exact ihArr _ _ _ _ l hl
        · split at hl
          · have he : l = pushLine opts depth (encodeKey key ++ [':']) := by
              simpa using hl
            subst he
            exact goodContent_pushLine
              (goodContent_colon_end (goodContent_encodeKey key).2.1)
          · rcases List.mem_cons.mp hl with e | hm
            · subst e
              exact goodContent_pushLine
                (goodContent_colon_end (goodContent_encodeKey key).2.1)
            · exact ihObj _ _ _ l hm
        · exact absurd hl (List.not_mem_nil _)
    · -- encodeArrayLines
      intro key items depth opts l hl
      simp only [encodeArrayLines] at hl
      split at hl
      · have he : l = pushLine opts depth
            (formatHeader 0 key none opts.delimiter opts.lengthMarker) := by
          simpa using hl
        subst he
        exact goodContent_pushLine (goodContent_formatHeader _ _ _ _ _)
      · split at hl
        · rename_i hprim
          have he : l = pushLine opts depth
              (encodeInlineArrayLine items key opts.delimiter opts.lengthMarker) := by
            simpa using hl
          subst he
          exact goodContent_pushLine (goodContent_inline hprim key _ _)
        · split at hl
          · exact goodContent_arraysAsListItems key items depth opts l hl
          · split at hl
            · split at hl
              · rename_i hext
                exact goodContent_tabular hext depth opts l hl
              · exact ihMixed _ _ _ _ l hl
            · exact ihMixed _ _ _ _ l hl
    · -- encodeMixedArrayLines
      intro key items depth opts l hl
      simp only [encodeMixedArrayLines] at hl
      rcases List.mem_cons.mp hl with e | hm
      · subst e
        exact goodContent_pushLine (goodContent_formatHeader _ _ _ _ _)
      · exact ihItems _ _ _ l hm
    · -- encodeListItemsLines
      intro items depth opts l hl
      cases items with
      | nil => exact absurd hl (List.not_mem_nil _)
      | cons item rest =>
        simp only [encodeListItemsLines] at hl
        rcases List.mem_append.mp hl with hm | hm
        · exact ihLIV _ _ _ l hm
        · exact ihItems _ _ _ l hm
    · -- encodeListItemValueLines
      intro v depth opts l hl
      simp only [encodeListItemValueLines] at hl
      split at hl
      · rename_i hp
        have he : l = pushListItem opts depth
            (encodePrimitive v opts.delimiter.char) := by
          simpa using hl
        subst he
        exact goodContent_pushListItem (goodContent_encodePrimitive hp _)
      · split at hl
        · rename_i inner heq
          split at hl
          · rename_i hprim
            have he : l = pushListItem opts depth
                (encodeInlineArrayLine inner none opts.delimiter opts.lengthMarker) := by
              simpa using hl
            subst he
            exact goodContent_pushListItem (goodContent_inline hprim none _ _)
          · exact absurd hl (List.not_mem_nil _)
        · exact ihOALI _ _ _ l hl
        · exact absurd hl (List.not_mem_nil _)
    · -- encodeObjectAsListItemLines
      intro fields depth opts l hl
      cases fields with
      | nil =>
        simp only [encodeObjectAsListItemLines] at hl
        have he : l = pushLine opts depth ['-'] := by simpa using hl
        subst he
        exact goodContent_pushLine (goodContent_singleton (by decide) (by decide))
      | cons p rest =>
        obtain ⟨firstKey, firstValue⟩ := p
        simp only [encodeObjectAsListItemLines] at hl
        rcases List.mem_append.mp hl with hm | hm
        · split at hm
          · rename_i hp
            have he : l = pushListItem opts depth
                (encodeKey firstKey ++ ':' :: ' ' ::
                  encodePrimitive firstValue opts.delimiter.char) := by
              simpa using hm
            subst he
            exact goodContent_pushListItem (goodContent_kv_line hp firstKey _)
          · split at hm
            · rename_i inner heq
              split at hm
              · rename_i hprim
                have he : l = pushListItem opts depth
                    (encodeInlineArrayLine inner (some firstKey)
                      opts.delimiter opts.lengthMarker) := by
                  simpa using hm
                subst he
                exact goodContent_pushListItem
                  (goodContent_inline hprim (some firstKey) _ _)
              · split at hm
                · split at hm
                  · rename_i hext
                    rcases List.mem_cons.mp hm with e | hm2
                    · subst e
                      exact goodContent_pushListItem
                        (goodContent_formatHeader _ _ _ _ _)
                    · obtain ⟨hhne, htab⟩ := extractTabularHeader_spec hext
                      exact goodContent_writeTabularRows htab hhne _ _ l hm2
                  · rcases List.mem_cons.mp hm with e | hm2
                    · subst e
                      exact goodContent_pushListItem
                        (goodContent_bracket_line firstKey inner.length)
                    · exact ihNU _ _ _ l hm2
                · rcases List.mem_cons.mp hm with e | hm2
                  · subst e
                    exact goodContent_pushListItem
                      (goodContent_bracket_line firstKey inner.length)
                  · exact ihItems _ _ _ l hm2
            · split at hm
              · have he : l = pushListItem opts depth (encodeKey firstKey ++ [':']) := by
                  simpa using hm
                subst he
                exact goodContent_pushListItem
                  (goodContent_colon_end (goodContent_encodeKey firstKey).2.1)
              · rcases List.mem_cons.mp hm with e | hm2
                · subst e
                  exact goodContent_pushListItem
                    (goodContent_colon_end (goodContent_encodeKey firstKey).2.1)
                · exact ihObj _ _ _ l hm2
            · exact absurd hm (List.not_mem_nil _)
        · exact ihObj _ _ _ l hm
    · -- encodeNonUniformObjectItems
      intro items depth opts l hl
      cases items with
      | nil => exact absurd hl (List.not_mem_nil _)
      | cons item rest =>
        simp only [encodeNonUniformObjectItems] at hl
        rcases List.mem_append.mp hl with hm | hm
        · split at hm
          · exact ihOALI _ _ _ l hm
          · exact absurd hm (List.not_mem_nil _)
        · exact ihNU _ _ _ l hm

/-! Splitting the joined output recovers the lines; claim C5. -/

theorem mem_ne_of_noNlB {l : Str} (h : noNlB l = true) : ∀ c ∈ l, c ≠ '\n' := by
  simp only [noNlB, List.all_eq_true, decide_eq_true_eq] at h
  exact h

theorem jsSplitAux_no_sep {sep : Char} :
    ∀ {l acc : Str}, (∀ c ∈ l, c ≠ sep) → jsSplitAux sep l acc = [acc.reverse ++ l] := by
  intro l
  induction l with
  | nil => intro acc h; simp [jsSplitAux]
  | cons c rest ih =>
    intro acc h
    have hc : c ≠ sep := h c (List.mem_cons_self c rest)
    simp only [jsSplitAux, if_neg hc]
    rw [ih (fun x hx => h x (List.mem_cons_of_mem _ hx))]
    simp

theorem jsSplitAux_through {sep : Char} :
    ∀ {l acc rest : Str}, (∀ c ∈ l, c ≠ sep) →
      jsSplitAux sep (l ++ sep :: rest) acc =
        (acc.reverse ++ l) :: jsSplitAux sep rest [] := by
  intro l
  induction l with
  | nil =>
    intro acc rest _
    simp [jsSplitAux]
  | cons c t ih =>
    intro acc rest h
    have hc : c ≠ sep := h c (List.mem_cons_self c t)
    simp only [List.cons_append, jsSplitAux, if_neg hc]
    show jsSplitAux sep (t ++ sep :: rest) (c :: acc) =
      (acc.reverse ++ c :: t) :: jsSplitAux sep rest []
    rw [ih (fun x hx => h x (List.mem_cons_of_mem _ hx))]
    simp

theorem jsSplit_joinSep :
    ∀ {ls : List Str}, (∀ l ∈ ls, noNlB l = true) → ls ≠ [] →
      jsSplit '\n' (joinSep ['\n'] ls) = ls := by
  intro ls
  induction ls with
  | nil => intro _ h; exact absurd rfl h
  | cons a rest ih =>
    intro h _
    cases rest with
    | nil =>
      show jsSplitAux '\n' a [] = [a]
      rw [jsSplitAux_no_sep (mem_ne_of_noNlB (h a (by simp)))]
      simp
    | cons b t =>
      have he : joinSep ['\n'] (a :: b :: t) =
          a ++ '\n' :: joinSep ['\n'] (b :: t) := by
        show a ++ ['\n'] ++ joinSep ['\n'] (b :: t) = _
        simp
      rw [he]
      show jsSplitAux '\n' (a ++ '\n' :: joinSep ['\n'] (b :: t)) [] = _
      rw [jsSplitAux_through (mem_ne_of_noNlB (h a (by simp)))]
      have := ih (fun l hl => h l (by simp [hl])) (by simp)
      rw [show (jsSplitAux '\n' (joinSep ['\n'] (b :: t)) [] : List Str) =
        jsSplit '\n' (joinSep ['\n'] (b :: t)) from rfl, this]
      simp

theorem joinSep_getLast_ne_nl {ls : List Str} (h : ∀ l ∈ ls, goodContent l) :
    (joinSep ['\n'] ls).getLast? ≠ some '\n' := by
  cases hls : ls with
  | nil => simp [joinSep]
  | cons a rest =>
    subst hls
    rw [getLast?_joinSep (by simp) h]
    exact getLast?_ne_of_noNl (h _ (List.getLast_mem (by simp))).2.1

/-- C5: for every value and every encode options, no line of the encoder
output ends with a space, and the output does not end with a newline. -/
theorem claim5_no_trailing_whitespace :
    ∀ (v : JsonValue) (o : EncodeOptions),
      ((jsSplit '\n' (encode v o)).all fun l => !(l.getLast? == some ' ')) = true ∧
      ((encode v o).getLast? == some '\n') = false := by
  intro v o
  unfold encode encodeValueStr
  split
  · rename_i hp
    obtain ⟨hne, hnl, hlast⟩ :=
      goodContent_encodePrimitive hp (resolveOptions o).delimiter.char
    constructor
    · rw [show jsSplit '\n' (encodePrimitive v (resolveOptions o).delimiter.char) =
          jsSplitAux '\n' (encodePrimitive v (resolveOptions o).delimiter.char) []
          from rfl,
        jsSplitAux_no_sep (mem_ne_of_noNlB hnl)]
      simp only [List.all_cons, List.all_nil, Bool.and_true, List.nil_append]
      simp [beq_eq_false_iff_ne.mpr hlast]
    · exact beq_eq_false_iff_ne.mpr (getLast?_ne_of_noNl hnl)
  · have hall : ∀ l ∈ encodeValueLines v (resolveOptions o), goodContent l := by
      intro l hl
      cases v with
      | arr items =>
        exact (encoderLines_good (encodeFuel (.arr items))).2.2.1 _ _ _ _ l hl
      | obj fields =>
        exact (encoderLines_good (encodeFuel (.obj fields))).1 _ _ _ l hl
      | null => exact absurd hl (List.not_mem_nil _)
      | bool b => exact absurd hl (List.not_mem_nil _)
      | num q => exact absurd hl (List.not_mem_nil _)
      | str s2 => exact absurd hl (List.not_mem_nil _)
    unfold joinLines
    by_cases hls : encodeValueLines v (resolveOptions o) = []
    · rw [hls]
      constructor <;> decide
    · rw [jsSplit_joinSep (fun l hl => (hall l hl).2.1) hls]
      constructor
      · simp only [List.all_eq_true]
        intro l hl
        simp [beq_eq_false_iff_ne.mpr (hall l hl).2.2]
      · exact beq_eq_false_iff_ne.mpr (joinSep_getLast_ne_nl hall)

end Toon
